import Mathlib

/-!
Verification of the zb content-addressed store core against its specification.

The development shallowly embeds the Go sources:
  * `zbstore/derivation.go` — store-path computation (`makeStorePath`), the
    derivation record, its ATerm marshaller and parser, derivation outputs and
    placeholders;
  * `path_eval.go` — the `path` / `toFile` evaluation primitives, the stamp
    cache check, and the import decision logic.

Go strings are modelled as `List Char` (UTF-8 byte order coincides with code
point order, so lexicographic comparisons agree); byte strings as `List Nat`
with values reduced mod 256 where it matters; Go's `(value, error)` returns as
`Except String _`; nil pointers as `Option`.  Functions from the repository
that are not among the provided sources (store-path validation, the fixed-CA
path rule, the ATerm token scanner) are modelled from the specification and
marked as such in their doc comments.
-/

namespace Zb

/-- Go strings, as lists of characters. -/
abbrev Str := List Char

/-! ## Byte-lexicographic string order (Go `<` on strings). -/

/-- Lexicographic strict order on strings by code point (equals Go's bytewise
string order, since UTF-8 preserves code-point order). -/
def strLtB : Str → Str → Bool
  | [], [] => false
  | [], _ :: _ => true
  | _ :: _, [] => false
  | a :: as, b :: bs =>
    if a.toNat < b.toNat then true
    else if b.toNat < a.toNat then false
    else strLtB as bs

theorem strLtB_cons_lt {x y : Char} (h : x.toNat < y.toNat) (xs ys : Str) :
    strLtB (x :: xs) (y :: ys) = true := by
  simp [strLtB, h]

theorem strLtB_cons_gt {x y : Char} (h : y.toNat < x.toNat) (xs ys : Str) :
    strLtB (x :: xs) (y :: ys) = false := by
  have h' : ¬ x.toNat < y.toNat := by omega
  simp [strLtB, h, h']

theorem strLtB_cons_eq {x y : Char} (h : x.toNat = y.toNat) (xs ys : Str) :
    strLtB (x :: xs) (y :: ys) = strLtB xs ys := by
  have h1 : ¬ x.toNat < y.toNat := by omega
  have h2 : ¬ y.toNat < x.toNat := by omega
  simp [strLtB, h1, h2]

theorem strLtB_irrefl : ∀ s : Str, strLtB s s = false := by
  intro s
  induction s with
  | nil => rfl
  | cons a as ih => rw [strLtB_cons_eq rfl, ih]

theorem strLtB_asymm : ∀ a b : Str, strLtB a b = true → strLtB b a = false := by
  intro a
  induction a with
  | nil => intro b h; cases b <;> simp_all [strLtB]
  | cons x xs ih =>
    intro b h
    cases b with
    | nil => simp_all [strLtB]
    | cons y ys =>
      rcases Nat.lt_trichotomy x.toNat y.toNat with h1 | h1 | h1
      · exact strLtB_cons_gt h1 ys xs
      · rw [strLtB_cons_eq h1 xs ys] at h
        rw [strLtB_cons_eq h1.symm ys xs]
        exact ih ys h
      · rw [strLtB_cons_gt h1 xs ys] at h
        exact absurd h (by simp)

theorem strLtB_trans : ∀ a b c : Str, strLtB a b = true → strLtB b c = true →
    strLtB a c = true := by
  intro a
  induction a with
  | nil =>
    intro b c hab hbc
    cases b <;> cases c <;> simp_all [strLtB]
  | cons x xs ih =>
    intro b c hab hbc
    cases b with
    | nil => simp_all [strLtB]
    | cons y ys =>
      cases c with
      | nil => simp_all [strLtB]
      | cons z zs =>
        rcases Nat.lt_trichotomy x.toNat y.toNat with hxy | hxy | hxy <;>
          rcases Nat.lt_trichotomy y.toNat z.toNat with hyz | hyz | hyz
        · exact strLtB_cons_lt (by omega) xs zs
        · exact strLtB_cons_lt (by omega) xs zs
        · rw [strLtB_cons_gt hyz ys zs] at hbc; exact absurd hbc (by simp)
        · exact strLtB_cons_lt (by omega) xs zs
        · rw [strLtB_cons_eq (by omega) xs zs]
          rw [strLtB_cons_eq hxy xs ys] at hab
          rw [strLtB_cons_eq hyz ys zs] at hbc
          exact ih ys zs hab hbc
        · rw [strLtB_cons_gt hyz ys zs] at hbc; exact absurd hbc (by simp)
        · rw [strLtB_cons_gt hxy xs ys] at hab; exact absurd hab (by simp)
        · rw [strLtB_cons_gt hxy xs ys] at hab; exact absurd hab (by simp)
        · rw [strLtB_cons_gt hxy xs ys] at hab; exact absurd hab (by simp)

theorem strLtB_eq_of_not : ∀ a b : Str, strLtB a b = false → strLtB b a = false →
    a = b := by
  intro a
  induction a with
  | nil => intro b h1 h2; cases b <;> simp_all [strLtB]
  | cons x xs ih =>
    intro b h1 h2
    cases b with
    | nil => simp_all [strLtB]
    | cons y ys =>
      rcases Nat.lt_trichotomy x.toNat y.toNat with hxy | hxy | hxy
      · rw [strLtB_cons_lt hxy xs ys] at h1; exact absurd h1 (by simp)
      · rw [strLtB_cons_eq hxy xs ys] at h1
        rw [strLtB_cons_eq hxy.symm ys xs] at h2
        have hchar : x = y := by
          have hval : x.val.toBitVec.toNat = y.val.toBitVec.toNat := hxy
          exact Char.eq_of_val_eq (UInt32.eq_of_toBitVec_eq (BitVec.eq_of_toNat_eq hval))
        rw [hchar, ih ys h1 h2]
      · rw [strLtB_cons_lt hxy ys xs] at h2; exact absurd h2 (by simp)

/-- Non-strict string order, used to model Go's `slices.Sort` comparator. -/
def strLe (a b : Str) : Prop := strLtB b a = false

instance : DecidableRel strLe := fun a b =>
  inferInstanceAs (Decidable (strLtB b a = false))

instance : IsTotal Str strLe := by
  constructor
  intro a b
  by_cases h : strLtB b a = false
  · exact Or.inl h
  · exact Or.inr (strLtB_asymm b a (by simpa using h))

instance : IsTrans Str strLe := by
  constructor
  intro a b c hab hbc
  unfold strLe at *
  by_contra hca
  have hca' : strLtB c a = true := by simpa using hca
  by_cases hbcb : strLtB b c = true
  · have := strLtB_trans b c a hbcb hca'
    simp [this] at hab
  · by_cases hcb : strLtB c b = true
    · simp [hcb] at hbc
    · have hbc0 : strLtB b c = false := by simpa using hbcb
      have hcb0 : strLtB c b = false := by simpa using hcb
      have : b = c := strLtB_eq_of_not b c hbc0 hcb0
      subst this
      simp [hca'] at hab

instance : IsAntisymm Str strLe := by
  constructor
  intro a b hab hba
  exact strLtB_eq_of_not a b hba hab

/-- Key ordering on association-list entries, for sorting Go-map entries. -/
def keyLe {α : Type} (p q : Str × α) : Prop := strLe p.1 q.1

instance {α : Type} : DecidableRel (keyLe (α := α)) := fun p q =>
  inferInstanceAs (Decidable (strLe p.1 q.1))

instance {α : Type} : IsTotal (Str × α) keyLe := by
  constructor
  intro a b
  exact IsTotal.total (r := strLe) a.1 b.1

instance {α : Type} : IsTrans (Str × α) keyLe := by
  constructor
  intro a b c hab hbc
  exact IsTrans.trans (r := strLe) a.1 b.1 c.1 hab hbc

/-- Executable check that a list of strings is strictly ascending. -/
def sortedStrictB : List Str → Bool
  | [] => true
  | [_] => true
  | a :: b :: rest => strLtB a b && sortedStrictB (b :: rest)

/-- Strictly ascending list of strings (the `sortedset.Set` invariant). -/
def sortedStrict (l : List Str) : Prop := l.Chain' (fun a b => strLtB a b = true)

theorem sortedStrictB_iff : ∀ l : List Str, sortedStrictB l = true ↔ sortedStrict l := by
  intro l
  induction l with
  | nil => simp [sortedStrictB, sortedStrict]
  | cons a rest ih =>
    cases rest with
    | nil => simp [sortedStrictB, sortedStrict]
    | cons b rest2 =>
      simp only [sortedStrictB, sortedStrict, Bool.and_eq_true, List.chain'_cons] at ih ⊢
      rw [ih]

instance : DecidablePred sortedStrict := fun l =>
  decidable_of_iff (sortedStrictB l = true) (sortedStrictB_iff l)

/-- Strictly ascending keys of an association list (canonical Go-map shape). -/
def keysSorted {α : Type} (l : List (Str × α)) : Prop :=
  (l.map Prod.fst).Chain' (fun a b => strLtB a b = true)

theorem keysSorted_iff {α : Type} (l : List (Str × α)) :
    sortedStrictB (l.map Prod.fst) = true ↔ keysSorted l :=
  sortedStrictB_iff (l.map Prod.fst)

instance {α : Type} : DecidablePred (keysSorted (α := α)) := fun l =>
  decidable_of_iff (sortedStrictB (l.map Prod.fst) = true) (keysSorted_iff l)

/-- `sortedset.Set.Add`: ordered insert without duplicates. -/
def ssInsert (x : Str) : List Str → List Str
  | [] => [x]
  | y :: ys =>
    if strLtB x y then x :: y :: ys
    else if strLtB y x then y :: ssInsert x ys
    else y :: ys

theorem ssInsert_all_lt (x : Str) : ∀ acc : List Str,
    (∀ y ∈ acc, strLtB y x = true) → ssInsert x acc = acc ++ [x] := by
  intro acc
  induction acc with
  | nil => intro _; rfl
  | cons y ys ih =>
    intro h
    have hy : strLtB y x = true := h y (by simp)
    have hx : strLtB x y = false := strLtB_asymm y x hy
    simp only [ssInsert, hx, hy, if_true, if_false, Bool.false_eq_true]
    rw [ih (fun z hz => h z (by simp [hz]))]
    simp

instance : IsTrans Str (fun a b => strLtB a b = true) :=
  ⟨fun a b c hab hbc => strLtB_trans a b c hab hbc⟩

/-- Folding `ssInsert` over a strictly ascending list, starting from a strictly
smaller accumulator, appends the list: repeated `Set.Add` in ascending order
rebuilds the same sorted list. -/
theorem foldl_ssInsert_sorted : ∀ (l acc : List Str),
    (acc ++ l).Chain' (fun a b => strLtB a b = true) →
    l.foldl (fun a v => ssInsert v a) acc = acc ++ l := by
  intro l
  induction l with
  | nil => intro acc _; simp
  | cons x xs ih =>
    intro acc h
    have hpw : (acc ++ x :: xs).Pairwise (fun a b => strLtB a b = true) :=
      List.chain'_iff_pairwise.mp h
    have hlt : ∀ y ∈ acc, strLtB y x = true := by
      intro y hy
      exact (List.pairwise_append.mp hpw).2.2 y hy x (by simp)
    have hstep : ssInsert x acc = acc ++ [x] := ssInsert_all_lt x acc hlt
    have h2 : ((acc ++ [x]) ++ xs).Chain' (fun a b => strLtB a b = true) := by
      simpa using h
    calc (x :: xs).foldl (fun a v => ssInsert v a) acc
        = xs.foldl (fun a v => ssInsert v a) (ssInsert x acc) := rfl
      _ = xs.foldl (fun a v => ssInsert v a) (acc ++ [x]) := by rw [hstep]
      _ = (acc ++ [x]) ++ xs := ih (acc ++ [x]) h2
      _ = acc ++ x :: xs := by simp

theorem foldl_ssInsert_sorted_nil (l : List Str) (h : sortedStrict l) :
    l.foldl (fun a v => ssInsert v a) [] = l := by
  simpa using foldl_ssInsert_sorted l [] (by simpa [sortedStrict] using h)

/-- A strict chain is sorted for the non-strict order. -/
theorem sortedStrict_sorted_le {l : List Str} (h : sortedStrict l) :
    l.Sorted strLe := by
  have hpw : l.Pairwise (fun a b => strLtB a b = true) :=
    List.chain'_iff_pairwise.mp h
  exact hpw.imp (fun hab => strLtB_asymm _ _ hab)

/-- Insertion sort (the model of Go `slices.Sort`) leaves a sorted list fixed. -/
theorem insertionSort_of_sortedStrict {l : List Str} (h : sortedStrict l) :
    List.insertionSort strLe l = l :=
  (sortedStrict_sorted_le h).insertionSort_eq

/-! ## Bytes, hex, Nix base-32, hash compression, SHA-256. -/

/-- UTF-8 encoding of one code point (Go strings are UTF-8 byte strings). -/
def utf8Char (c : Char) : List Nat :=
  let n := c.toNat
  if n < 128 then [n]
  else if n < 2048 then [192 + n / 64, 128 + n % 64]
  else if n < 65536 then [224 + n / 4096, 128 + (n / 64) % 64, 128 + n % 64]
  else [240 + n / 262144, 128 + (n / 4096) % 64, 128 + (n / 64) % 64, 128 + n % 64]

/-- The UTF-8 bytes of a string. -/
def strBytes : Str → List Nat
  | [] => []
  | c :: cs => utf8Char c ++ strBytes cs

theorem strBytes_append : ∀ a b : Str, strBytes (a ++ b) = strBytes a ++ strBytes b := by
  intro a b
  induction a with
  | nil => rfl
  | cons c cs ih => simp [strBytes, ih]

/-- Lowercase base-16 digits (Go `encoding/hex`). -/
def hexDigit (n : Nat) : Char := "0123456789abcdef".toList.getD n 'x'

/-- Go `hex.EncodeToString`. -/
def hexEncode : List Nat → Str
  | [] => []
  | b :: bs => hexDigit (b / 16) :: hexDigit (b % 16) :: hexEncode bs

/-- Value of one hex digit (Go `encoding/hex` accepts both cases). -/
def hexVal (c : Char) : Option Nat :=
  if 48 ≤ c.toNat ∧ c.toNat ≤ 57 then some (c.toNat - 48)
  else if 97 ≤ c.toNat ∧ c.toNat ≤ 102 then some (c.toNat - 87)
  else if 65 ≤ c.toNat ∧ c.toNat ≤ 70 then some (c.toNat - 55)
  else none

/-- Go `hex.DecodeString`: fails on odd length or an invalid digit. -/
def hexDecode : Str → Option (List Nat)
  | [] => some []
  | [_] => none
  | c1 :: c2 :: rest => do
    let hi ← hexVal c1
    let lo ← hexVal c2
    let r ← hexDecode rest
    pure ((hi * 16 + lo) :: r)

theorem hexVal_hexDigit {d : Nat} (h : d < 16) : hexVal (hexDigit d) = some d := by
  interval_cases d <;> decide

theorem hexDecode_hexEncode : ∀ bs : List Nat, (∀ b ∈ bs, b < 256) →
    hexDecode (hexEncode bs) = some bs := by
  intro bs
  induction bs with
  | nil => intro _; rfl
  | cons b rest ih =>
    intro h
    have hb : b < 256 := h b (by simp)
    have hhi : b / 16 < 16 := by omega
    have hlo : b % 16 < 16 := by omega
    simp only [hexEncode, hexDecode, hexVal_hexDigit hhi, hexVal_hexDigit hlo,
      ih (fun x hx => h x (by simp [hx])), Option.bind_some, Option.some_bind]
    have hdm : b / 16 * 16 + b % 16 = b := by omega
    simp [Option.pure_def, hdm]

theorem hexEncode_ne_nil {bs : List Nat} (h : bs ≠ []) : hexEncode bs ≠ [] := by
  cases bs with
  | nil => simp at h
  | cons b rest => simp [hexEncode]

/-- The Nix base-32 alphabet (spec section 4.2). -/
def nixbase32Chars : Str := "0123456789abcdfghijklmnpqrsvwxyz".toList

/-- Modelled from the spec: Nix base-32 encoding (`nixbase32.EncodeToString` of
the external nix library; spec section 4.2 fixes the alphabet, the width
`ceil(8n/5)` and the bit layout used by Nix). -/
def nixbase32 (bytes : List Nat) : Str :=
  let len := (bytes.length * 8 + 4) / 5
  (List.range len).reverse.map (fun i =>
    let b := i * 5
    let j := b / 8
    let k := b % 8
    let c := (bytes.getD j 0 >>> k) ||| (bytes.getD (j + 1) 0 <<< (8 - k))
    nixbase32Chars.getD (c % 32) 'x')

theorem nixbase32_length (bytes : List Nat) :
    (nixbase32 bytes).length = (bytes.length * 8 + 4) / 5 := by
  simp [nixbase32]

theorem nixbase32Chars_getD_mem (n : Nat) :
    nixbase32Chars.getD (n % 32) 'x' ∈ nixbase32Chars := by
  have h : n % 32 < 32 := Nat.mod_lt _ (by norm_num)
  set m := n % 32 with hm
  interval_cases m <;> decide

theorem nixbase32_mem_alphabet {bytes : List Nat} {c : Char}
    (h : c ∈ nixbase32 bytes) : c ∈ nixbase32Chars := by
  simp only [nixbase32, List.mem_map, List.mem_reverse, List.mem_range] at h
  obtain ⟨i, _, hc⟩ := h
  subst hc
  exact nixbase32Chars_getD_mem _

/-- Modelled from the spec: `nix.CompressHash` folds the input onto a fixed
width by XOR (`out[i mod sz] ^= in[i]`; spec section 4.2). -/
def compressAux : List Nat → Nat → List Nat → List Nat
  | out, _, [] => out
  | out, i, b :: bs =>
    compressAux (out.set (i % out.length) ((out.getD (i % out.length) 0) ^^^ b)) (i + 1) bs

def compressHash (sz : Nat) (input : List Nat) : List Nat :=
  compressAux (List.replicate sz 0) 0 input

theorem compressAux_length : ∀ (input : List Nat) (out : List Nat) (i : Nat),
    (compressAux out i input).length = out.length := by
  intro input
  induction input with
  | nil => intro out i; rfl
  | cons b bs ih =>
    intro out i
    simp [compressAux, ih]

theorem compressHash_length (sz : Nat) (input : List Nat) :
    (compressHash sz input).length = sz := by
  simp [compressHash, compressAux_length]

/-! SHA-256 over byte lists, all words reduced mod 2^32. -/

def rotr (n x : Nat) : Nat := ((x >>> n) ||| (x <<< (32 - n))) % 4294967296

def sha256K : List Nat :=
  [1116352408, 1899447441, 3049323471, 3921009573, 961987163, 1508970993,
   2453635748, 2870763221, 3624381080, 310598401, 607225278, 1426881987,
   1925078388, 2162078206, 2614888103, 3248222580, 3835390401, 4022224774,
   264347078, 604807628, 770255983, 1249150122, 1555081692, 1996064986,
   2554220882, 2821834349, 2952996808, 3210313671, 3336571891, 3584528711,
   113926993, 338241895, 666307205, 773529912, 1294757372, 1396182291,
   1695183700, 1986661051, 2177026350, 2456956037, 2730485921, 2820302411,
   3259730800, 3345764771, 3516065817, 3600352804, 4094571909, 275423344,
   430227734, 506948616, 659060556, 883997877, 958139571, 1322822218,
   1537002063, 1747873779, 1955562222, 2024104815, 2227730452, 2361852424,
   2428436474, 2756734187, 3204031479, 3329325298]

structure SHAState where
  a : Nat
  b : Nat
  c : Nat
  d : Nat
  e : Nat
  f : Nat
  g : Nat
  h : Nat
deriving DecidableEq

def shaInit : SHAState :=
  ⟨1779033703, 3144134277, 1013904242, 2773480762, 1359893119, 2600822924, 528734635, 1541459225⟩

def bytesToWords : List Nat → List Nat
  | a :: b :: c :: d :: rest => (((a * 256 + b) * 256 + c) * 256 + d) :: bytesToWords rest
  | _ => []

def smallSigma0 (x : Nat) : Nat := (rotr 7 x) ^^^ (rotr 18 x) ^^^ (x >>> 3)
def smallSigma1 (x : Nat) : Nat := (rotr 17 x) ^^^ (rotr 19 x) ^^^ (x >>> 10)
def bigSigma0 (x : Nat) : Nat := (rotr 2 x) ^^^ (rotr 13 x) ^^^ (rotr 22 x)
def bigSigma1 (x : Nat) : Nat := (rotr 6 x) ^^^ (rotr 11 x) ^^^ (rotr 25 x)

def extendW : Nat → List Nat → List Nat
  | 0, w => w
  | n + 1, w =>
    let l := w.length
    let x := (smallSigma1 (w.getD (l - 2) 0) + w.getD (l - 7) 0 +
              smallSigma0 (w.getD (l - 15) 0) + w.getD (l - 16) 0) % 4294967296
    extendW n (w ++ [x])

def chComb (e f g : Nat) : Nat := (e &&& f) ^^^ ((e ^^^ 4294967295) &&& g)
def majComb (a b c : Nat) : Nat := (a &&& b) ^^^ (a &&& c) ^^^ (b &&& c)

def shaRound (st : SHAState) (wk : Nat) : SHAState :=
  let t1 := (st.h + bigSigma1 st.e + chComb st.e st.f st.g + wk) % 4294967296
  let t2 := (bigSigma0 st.a + majComb st.a st.b st.c) % 4294967296
  ⟨(t1 + t2) % 4294967296, st.a, st.b, st.c, (st.d + t1) % 4294967296, st.e, st.f, st.g⟩

def addState (x y : SHAState) : SHAState :=
  ⟨(x.a + y.a) % 4294967296, (x.b + y.b) % 4294967296, (x.c + y.c) % 4294967296,
   (x.d + y.d) % 4294967296, (x.e + y.e) % 4294967296, (x.f + y.f) % 4294967296,
   (x.g + y.g) % 4294967296, (x.h + y.h) % 4294967296⟩

def compressBlock (st : SHAState) (block : List Nat) : SHAState :=
  let ws := extendW 48 (bytesToWords block)
  let wks := List.zipWith (fun w k => (w + k) % 4294967296) ws sha256K
  addState st (wks.foldl shaRound st)

/-- One 64-byte block per step; the fuel (an upper bound on the number of
blocks, always sufficient at the call site) keeps the recursion structural so
that concrete hashes reduce inside the kernel. -/
def sha256Blocks : Nat → SHAState → List Nat → SHAState
  | 0, st, _ => st
  | fuel + 1, st, l =>
    if l = [] then st
    else sha256Blocks fuel (compressBlock st (l.take 64)) (l.drop 64)

def padMessage (msg : List Nat) : List Nat :=
  let len := msg.length
  let zeros := (64 - ((len + 9) % 64)) % 64
  let bitLen := len * 8
  msg ++ [128] ++ List.replicate zeros 0 ++
    [(bitLen >>> 56) % 256, (bitLen >>> 48) % 256, (bitLen >>> 40) % 256, (bitLen >>> 32) % 256,
     (bitLen >>> 24) % 256, (bitLen >>> 16) % 256, (bitLen >>> 8) % 256, bitLen % 256]

def wordBytes (w : Nat) : List Nat := [(w >>> 24) % 256, (w >>> 16) % 256, (w >>> 8) % 256, w % 256]

/-- SHA-256 of a byte string (checked against the standard test vectors). -/
def sha256 (msg : List Nat) : List Nat :=
  let padded := padMessage msg
  let st := sha256Blocks padded.length shaInit padded
  wordBytes st.a ++ wordBytes st.b ++ wordBytes st.c ++ wordBytes st.d ++
  wordBytes st.e ++ wordBytes st.f ++ wordBytes st.g ++ wordBytes st.h

theorem sha256_length (msg : List Nat) : (sha256 msg).length = 32 := by
  simp [sha256, wordBytes]

example : sha256 [0x61, 0x62, 0x63] = [0xba, 0x78, 0x16, 0xbf, 0x8f, 0x01, 0xcf, 0xea,
    0x41, 0x41, 0x40, 0xde, 0x5d, 0xae, 0x22, 0x23, 0xb0, 0x03, 0x61, 0xa3, 0x96, 0x17, 0x7a, 0x9c,
    0xb4, 0x10, 0xff, 0x61, 0xf2, 0x00, 0x15, 0xad] := by decide

/-! ## Hashes and content addresses (interface of the external nix library). -/

/-- `nix.HashType`. -/
inductive HashType where
  | md5
  | sha1
  | sha256
  | sha512
deriving DecidableEq

/-- `nix.HashType.String`. -/
def HashType.str : HashType → Str
  | .md5 => "md5".toList
  | .sha1 => "sha1".toList
  | .sha256 => "sha256".toList
  | .sha512 => "sha512".toList

/-- `nix.HashType.Size`: digest width in bytes. -/
def HashType.size : HashType → Nat
  | .md5 => 16
  | .sha1 => 20
  | .sha256 => 32
  | .sha512 => 64

/-- `nix.ParseHashType`. -/
def parseHashType (s : Str) : Except Str HashType :=
  if s = "md5".toList then .ok .md5
  else if s = "sha1".toList then .ok .sha1
  else if s = "sha256".toList then .ok .sha256
  else if s = "sha512".toList then .ok .sha512
  else .error ("unknown hash type".toList)

/-- `nix.Hash`: an algorithm together with its digest bytes. -/
structure Hash where
  typ : HashType
  bits : List Nat
deriving DecidableEq

/-- `nix.Hash.RawBase16`: bare lowercase hex digest. -/
def Hash.rawBase16 (h : Hash) : Str := hexEncode h.bits

/-- `nix.Hash.Base16`: the algorithm-prefixed base-16 form
(`<type>:<hex>`), the rendering used inside store-path fingerprints. -/
def Hash.base16 (h : Hash) : Str := h.typ.str ++ ':' :: hexEncode h.bits

/-- `nix.Hash.RawBase32`: bare Nix base-32 digest. -/
def Hash.rawBase32 (h : Hash) : Str := nixbase32 h.bits

/-- `nix.ContentAddress`: a tagged union of the three addressing schemes. -/
inductive ContentAddress where
  | text (h : Hash)
  | flat (h : Hash)
  | recursive (h : Hash)
deriving DecidableEq

/-- `nix.ContentAddress.Hash`. -/
def ContentAddress.hash : ContentAddress → Hash
  | .text h => h
  | .flat h => h
  | .recursive h => h

/-- `contentAddressMethod` (derivation.go). -/
inductive CAMethod where
  | text
  | flat
  | recursive
deriving DecidableEq

/-- `contentAddressMethod.prefix` (derivation.go): the tag put in front of the
hash-algorithm name inside an ATerm output tuple. -/
def CAMethod.tag : CAMethod → Str
  | .text => "text:".toList
  | .flat => []
  | .recursive => "r:".toList

/-- `methodOfContentAddress` (derivation.go). -/
def methodOfContentAddress : ContentAddress → CAMethod
  | .text _ => .text
  | .recursive _ => .recursive
  | .flat _ => .flat

/-- Go `strings.CutPrefix` / `bytes.CutPrefix`: strip a leading pattern. -/
def cutPre : Str → Str → Option Str
  | [], s => some s
  | _ :: _, [] => none
  | p :: ps, c :: cs => if c = p then cutPre ps cs else none

theorem cutPre_append : ∀ (p s : Str), cutPre p (p ++ s) = some s := by
  intro p
  induction p with
  | nil => intro s; rfl
  | cons c cs ih => intro s; simp [cutPre, ih]

/-- `parseHashAlgorithm` (derivation.go): split the method tag off a
`caInfo` string and parse the remaining hash-type name. -/
def parseHashAlgorithm (s : Str) : Except Str (CAMethod × HashType) :=
  match cutPre ("r:".toList) s with
  | some rest => (parseHashType rest).map (fun t => (.recursive, t))
  | none =>
    match cutPre ("text:".toList) s with
    | some rest => (parseHashType rest).map (fun t => (.text, t))
    | none => (parseHashType s).map (fun t => (.flat, t))

/-- `References` (zbstore): other store paths plus a self flag.  `others`
carries the `sortedset.Set` invariant of strictly ascending iteration. -/
structure References where
  others : List Str
  self : Bool
deriving DecidableEq

theorem parseHashAlgorithm_tag (m : CAMethod) (t : HashType) :
    parseHashAlgorithm (m.tag ++ t.str) = .ok (m, t) := by
  cases m <;> cases t <;> rfl

/-! ## Store paths. -/

/-- Modelled from the spec: a store-object name character
(`[A-Za-z0-9+\-._?=]`, spec section 6). -/
def validNameChar (c : Char) : Bool :=
  (48 ≤ c.toNat && c.toNat ≤ 57) || (65 ≤ c.toNat && c.toNat ≤ 90) ||
  (97 ≤ c.toNat && c.toNat ≤ 122) ||
  c = '+' || c = '-' || c = '.' || c = '_' || c = '?' || c = '='

/-- Modelled from the spec: a valid store-object name is nonempty, uses only
name characters, and may not start with a dot (spec section 6). -/
def validObjectName (name : Str) : Bool :=
  !name.isEmpty && name.headD ' ' != '.' && name.all validNameChar

/-- Modelled from the spec: `Directory.Object` — the store path of a named
object directly under the store directory, after validating the name
(spec section 3: store paths are `<dir>/<digest>-<name>`). -/
def dirObject (dir : Str) (name : Str) : Except Str Str :=
  if validObjectName name then .ok (dir ++ '/' :: name)
  else .error ("object name is invalid".toList)

/-- `makeStorePath` (derivation.go): hash the fingerprint
`typ[:ref]*[:self]?:<base16 hash>:<dir>:<name>` (the sequential
`h.Write` calls hash exactly this concatenation), XOR-compress the 32-byte
digest to 20 bytes, base-32 encode, and return `dir/<digest>-<name>`. -/
def makeStorePath (dir typ : Str) (hash : Hash) (name : Str) (refs : References) :
    Except Str Str :=
  let fp := typ ++ (refs.others.foldl (fun acc r => acc ++ ':' :: r) []) ++
    (if refs.self then ":self".toList else []) ++
    ':' :: hash.base16 ++ ':' :: dir ++ ':' :: name
  let digest := nixbase32 (compressHash 20 (sha256 (strBytes fp)))
  dirObject dir (digest ++ '-' :: name)

/-- The fingerprint-and-path computation exactly as the specification words it
(spec section 4.2 and claim C1): references sorted ascending, each preceded by
a colon, `:self` iff the self flag is set, then colon-separated base-16 hash,
directory and name, no trailing newline; SHA-256, XOR-fold 32 to 20 bytes,
Nix base-32, and the object `<digest>-<name>` under the directory. -/
def makeStorePathClaim (dir typ : Str) (hash : Hash) (name : Str) (refs : References) :
    Except Str Str :=
  let sortedRefs := List.insertionSort strLe refs.others
  let fp := typ ++ (sortedRefs.map (fun r => ':' :: r)).flatten ++
    (if refs.self then ":self".toList else []) ++
    ':' :: hash.base16 ++ ':' :: dir ++ ':' :: name
  let fingerprintHash := sha256 (strBytes fp)
  let compressed := compressHash 20 fingerprintHash
  let digest := nixbase32 compressed
  dirObject dir (digest ++ '-' :: name)

theorem foldl_colon_refs : ∀ (l : List Str) (acc : Str),
    l.foldl (fun acc r => acc ++ ':' :: r) acc = acc ++ (l.map (fun r => ':' :: r)).flatten := by
  intro l
  induction l with
  | nil => intro acc; simp
  | cons x xs ih =>
    intro acc
    simp only [List.foldl_cons, List.map_cons, List.flatten_cons, ih]
    simp

/-- Modelled from the spec: `FixedCAOutputPath` / `fixedCAOutputPath` — the
dispatch from a content address to a store path (spec section 4.2): `text`
content addresses use the `text` fingerprint class with the references in the
body, `recursive` ones use `source`, and anything else is the self-contained
`fixed:<method>:<hashAlgo>:<hash>` class, which admits no references. -/
def fixedCAOutputPath (dir name : Str) (ca : ContentAddress) (refs : References) :
    Except Str Str :=
  match ca with
  | .text h => makeStorePath dir ("text".toList) h name refs
  | .recursive h => makeStorePath dir ("source".toList) h name refs
  | .flat h =>
    if refs.others.isEmpty && !refs.self then
      makeStorePath dir ("fixed:".toList ++ CAMethod.tag .flat ++ h.typ.str ++
        ':' :: hexEncode h.bits) h name ⟨[], false⟩
    else .error ("fixed output cannot have references".toList)

/-- Split a path at its last slash: `some (dir, base)` with `base` the part
after the final `/` (no slash inside), or `none` when there is no slash. -/
def splitLastSlash (p : Str) : Option (Str × Str) :=
  let revBase := p.reverse.takeWhile (fun c => c != '/')
  if revBase.length = p.length then none
  else some (p.take (p.length - revBase.length - 1), revBase.reverse)

/-- Modelled from the spec: `Path.Dir` — the directory component of a store
path (everything before the final slash; `slashpath.Dir` semantics on the
already-clean paths the code passes it). -/
def dirOf (p : Str) : Str :=
  match splitLastSlash p with
  | none => ".".toList
  | some ([], _) => "/".toList
  | some (dir, _) => dir

/-- Modelled from the spec: `ParsePath` — validate a store path string
(spec sections 3 and 6): `<dir>/<digest>-<name>` with a nonempty directory,
a 32-character base-32 digest, and a valid object name. -/
def parsePath (s : Str) : Option Str :=
  match splitLastSlash s with
  | none => none
  | some (dir, base) =>
    if dir.isEmpty then none
    else if (32 < base.length && (base.take 32).all (fun c => nixbase32Chars.contains c) &&
        base.getD 32 ' ' == '-' && validObjectName (base.drop 33)) then some s
    else none

instance {ε α : Type} [DecidableEq ε] [DecidableEq α] : DecidableEq (Except ε α) := by
  intro a b
  cases a <;> cases b
  case error.error e1 e2 =>
    exact if h : e1 = e2 then .isTrue (by rw [h]) else .isFalse (by intro hh; cases hh; exact h rfl)
  case error.ok e1 a2 => exact .isFalse (by intro hh; cases hh)
  case ok.error a1 e2 => exact .isFalse (by intro hh; cases hh)
  case ok.ok a1 a2 =>
    exact if h : a1 = a2 then .isTrue (by rw [h]) else .isFalse (by intro hh; cases hh; exact h rfl)

/-! ## Claim C1: the store-path fingerprint. -/

/-- C1: for every store directory, type tag, hash, name and reference set,
`makeStorePath` SHA-256 hashes the concatenation of the type tag, the
references in ascending lexicographic order each preceded by a colon, a
`:self` token iff the self flag is set, and the colon-prefixed base-16 hash,
directory and name, with no trailing newline; the 32-byte digest is XOR-folded
to 20 bytes, encoded in the 32-character Nix base-32 alphabet, and the result
is the object `<digest>-<name>` under the directory.  The reference list is
consumed as a set: any permutation of it yields the same path. -/
theorem c1_makeStorePath (dir typ : Str) (hash : Hash) (name : Str) (refs : References)
    (hsorted : sortedStrict refs.others) :
    makeStorePath dir typ hash name refs = makeStorePathClaim dir typ hash name refs ∧
    ∀ l : List Str, l.Perm refs.others →
      makeStorePathClaim dir typ hash name ⟨l, refs.self⟩ =
        makeStorePathClaim dir typ hash name refs := by
  constructor
  · unfold makeStorePath makeStorePathClaim
    rw [insertionSort_of_sortedStrict hsorted, foldl_colon_refs]
    simp
  · intro l hperm
    unfold makeStorePathClaim
    have hsort : List.insertionSort strLe l = List.insertionSort strLe refs.others := by
      apply List.eq_of_perm_of_sorted (r := strLe)
      · exact (List.perm_insertionSort strLe l).trans
          (hperm.trans (List.perm_insertionSort strLe refs.others).symm)
      · exact List.sorted_insertionSort strLe l
      · exact List.sorted_insertionSort strLe refs.others
    rw [hsort]

/-- Witness for C1 at a concrete sorted two-reference input with a self flag. -/
theorem c1_makeStorePath_witness :
    sortedStrict ["/zb/store/a-x".toList, "/zb/store/b-y".toList] ∧
    (makeStorePath ("/zb/store".toList) ("text".toList) ⟨.sha256, [1, 2]⟩ ("hi.txt".toList)
        ⟨["/zb/store/a-x".toList, "/zb/store/b-y".toList], true⟩ =
      makeStorePathClaim ("/zb/store".toList) ("text".toList) ⟨.sha256, [1, 2]⟩ ("hi.txt".toList)
        ⟨["/zb/store/a-x".toList, "/zb/store/b-y".toList], true⟩ ∧
    ∀ l : List Str, l.Perm ["/zb/store/a-x".toList, "/zb/store/b-y".toList] →
      makeStorePathClaim ("/zb/store".toList) ("text".toList) ⟨.sha256, [1, 2]⟩ ("hi.txt".toList)
          ⟨l, true⟩ =
        makeStorePathClaim ("/zb/store".toList) ("text".toList) ⟨.sha256, [1, 2]⟩ ("hi.txt".toList)
          ⟨["/zb/store/a-x".toList, "/zb/store/b-y".toList], true⟩) :=
  ⟨by decide, c1_makeStorePath _ _ _ _ _ (by decide)⟩

/-! ## Claim C9: the hash placeholder. -/

/-- `HashPlaceholder` (derivation.go): hash `"nix-output:" + outputName`
with SHA-256 and prefix its raw base-32 rendering with a slash. -/
def HashPlaceholder (outputName : Str) : Str :=
  '/' :: Hash.rawBase32 ⟨.sha256, sha256 (strBytes ("nix-output:".toList) ++ strBytes outputName)⟩

/-- C9: `HashPlaceholder(outputName)` is `"/" + nixBase32(sha256("nix-output:"
+ outputName))` and always has length 53 (1 + 52). -/
theorem c9_hashPlaceholder (outputName : Str) :
    HashPlaceholder outputName =
      '/' :: nixbase32 (sha256 (strBytes ("nix-output:".toList ++ outputName))) ∧
    (HashPlaceholder outputName).length = 53 := by
  constructor
  · unfold HashPlaceholder Hash.rawBase32
    rw [← strBytes_append]
  · simp [HashPlaceholder, Hash.rawBase32, nixbase32_length, sha256_length]

/-! ## Derivation outputs. -/

/-- `DerivationOutput` (derivation.go).  The Go struct is a hand-rolled tagged
union (a `typ` tag plus `ca` / `method` / `hashAlgo` payload fields, only ever
built through the two constructor families below), modelled here as the
corresponding sum. -/
inductive DerivationOutput where
  | fixed (ca : ContentAddress)
  | floating (method : CAMethod) (hashAlgo : HashType)
deriving DecidableEq

/-- `FixedCAOutput` (derivation.go). -/
def FixedCAOutput (ca : ContentAddress) : DerivationOutput := .fixed ca

/-- `FlatFileFloatingCAOutput` (derivation.go). -/
def FlatFileFloatingCAOutput (hashAlgo : HashType) : DerivationOutput :=
  .floating .flat hashAlgo

/-- `RecursiveFileFloatingCAOutput` (derivation.go). -/
def RecursiveFileFloatingCAOutput (hashAlgo : HashType) : DerivationOutput :=
  .floating .recursive hashAlgo

/-- `DefaultDerivationOutputName` (derivation.go). -/
def DefaultDerivationOutputName : Str := "out".toList

/-- `DerivationOutput.IsFixed` (derivation.go); the nil receiver is `none`.
The Go body is `out.typ == fixedCAOutputType` after the nil check. -/
def DerivationOutput.IsFixed : Option DerivationOutput → Bool
  | none => false
  | some (.fixed _) => true
  | some (.floating _ _) => false

/-- `DerivationOutput.IsFloating` (derivation.go); the nil receiver is `none`.
The Go body after the nil check is `out.typ == fixedCAOutputType` — exactly
the same test as `IsFixed`, despite the doc comment promising the floating
classification. -/
def DerivationOutput.IsFloating : Option DerivationOutput → Bool
  | none => false
  | some (.fixed _) => true
  | some (.floating _ _) => false

/-- `DerivationOutput.Path` (derivation.go): the store path of a fixed output,
with `ok` reporting success; nil receivers and floating outputs yield
`("", false)`. -/
def DerivationOutput.path (out : Option DerivationOutput) (store drvName outName : Str) :
    Str × Bool :=
  match out with
  | none => ([], false)
  | some (.fixed ca) =>
    let n := if outName = DefaultDerivationOutputName then drvName
             else drvName ++ '-' :: outName
    match fixedCAOutputPath store n ca ⟨[], false⟩ with
    | .ok p => (p, true)
    | .error _ => ([], false)
  | some (.floating _ _) => ([], false)

/-! ## Claim C5: `IsFloating` classifies exactly like `IsFixed`. -/

/-- C5: for every non-nil `DerivationOutput`, `IsFloating` agrees with
`IsFixed`: it returns `true` exactly for outputs built by `FixedCAOutput` and
`false` for those built by `FlatFileFloatingCAOutput` and
`RecursiveFileFloatingCAOutput`. -/
theorem c5_isFloating_is_isFixed :
    (∀ o : DerivationOutput,
      DerivationOutput.IsFloating (some o) = DerivationOutput.IsFixed (some o)) ∧
    (∀ ca, DerivationOutput.IsFloating (some (FixedCAOutput ca)) = true) ∧
    (∀ a, DerivationOutput.IsFloating (some (FlatFileFloatingCAOutput a)) = false) ∧
    (∀ a, DerivationOutput.IsFloating (some (RecursiveFileFloatingCAOutput a)) = false) := by
  refine ⟨fun o => ?_, fun ca => rfl, fun a => rfl, fun a => rfl⟩
  cases o <;> rfl

/-! ## Claim C10: nil-receiver safety. -/

/-- C10: on a nil `*DerivationOutput` receiver every public method is total
and benign: `IsFixed` and `IsFloating` return `false` and `Path` returns the
empty path with `ok = false`. -/
theorem c10_nil_receiver :
    DerivationOutput.IsFixed none = false ∧
    DerivationOutput.IsFloating none = false ∧
    ∀ store drvName outName,
      DerivationOutput.path none store drvName outName = ([], false) :=
  ⟨rfl, rfl, fun _ _ _ => rfl⟩

/-! ## Claim C8: fixed-output store object names. -/

theorem makeStorePath_ok_shape {dir typ : Str} {hash : Hash} {name : Str}
    {refs : References} {p : Str} (h : makeStorePath dir typ hash name refs = .ok p) :
    ∃ digest : Str, digest.length = 32 ∧ p = dir ++ '/' :: (digest ++ '-' :: name) := by
  unfold makeStorePath dirObject at h
  by_cases hv : validObjectName
      (nixbase32 (compressHash 20 (sha256 (strBytes (typ ++
        (refs.others.foldl (fun acc r => acc ++ ':' :: r) []) ++
        (if refs.self then ":self".toList else []) ++
        ':' :: hash.base16 ++ ':' :: dir ++ ':' :: name)))) ++ '-' :: name) = true
  · simp only [hv, if_true, Except.ok.injEq] at h
    refine ⟨_, ?_, h.symm⟩
    rw [nixbase32_length, compressHash_length]
  · simp only [hv] at h
    simp at h

/-- C8: for a fixed output, the store-object name used to compute the path is
the derivation name when the output is named `out`, and
`<drvName>-<outName>` otherwise; on success the returned path is the object
`<digest>-<that name>` under the store directory. -/
theorem c8_fixed_output_name (store drvName outName : Str) (ca : ContentAddress) :
    (DerivationOutput.path (some (.fixed ca)) store drvName outName =
      match fixedCAOutputPath store
          (if outName = DefaultDerivationOutputName then drvName
           else drvName ++ '-' :: outName) ca ⟨[], false⟩ with
      | .ok p => (p, true)
      | .error _ => ([], false)) ∧
    ((DerivationOutput.path (some (.fixed ca)) store drvName outName).2 = true →
      ∃ digest : Str, digest.length = 32 ∧
        (DerivationOutput.path (some (.fixed ca)) store drvName outName).1 =
          store ++ '/' :: (digest ++ '-' ::
            (if outName = DefaultDerivationOutputName then drvName
             else drvName ++ '-' :: outName))) := by
  refine ⟨rfl, fun hok => ?_⟩
  have hpath : DerivationOutput.path (some (.fixed ca)) store drvName outName =
      (match fixedCAOutputPath store
          (if outName = DefaultDerivationOutputName then drvName
           else drvName ++ '-' :: outName) ca ⟨[], false⟩ with
       | .ok p => (p, true)
       | .error _ => ([], false)) := rfl
  set n := if outName = DefaultDerivationOutputName then drvName
           else drvName ++ '-' :: outName with hn
  rw [hpath] at hok ⊢
  rcases hcase : fixedCAOutputPath store n ca ⟨[], false⟩ with e | p
  · rw [hcase] at hok
    simp at hok
  · have hshape : ∃ digest : Str, digest.length = 32 ∧ p = store ++ '/' :: (digest ++ '-' :: n) := by
      rcases ca with h | h | h
      · exact makeStorePath_ok_shape hcase
      · unfold fixedCAOutputPath at hcase
        simp only [List.isEmpty_nil, Bool.not_false, Bool.and_self, if_true] at hcase
        exact makeStorePath_ok_shape hcase
      · exact makeStorePath_ok_shape hcase
    exact hshape

/-! ## ATerm text: escaping and quoting (`aterm.AppendString`). -/

/-- One escaped character of an ATerm quoted string (spec section 4.3). -/
def escChar (c : Char) : Str :=
  if c = '\\' then ['\\', '\\']
  else if c = '"' then ['\\', '"']
  else if c = '\n' then ['\\', 'n']
  else if c = '\r' then ['\\', 'r']
  else if c = '\t' then ['\\', 't']
  else [c]

def escape : Str → Str
  | [] => []
  | c :: cs => escChar c ++ escape cs

/-- Modelled from the spec: `aterm.AppendString` — the quoted, escaped form of
a string (spec section 4.3; the `internal/aterm` writer is not among the
provided sources). -/
def quoteStr (s : Str) : Str := '"' :: escape s ++ ['"']

/-! ## ATerm scanner (`aterm.Scanner`). -/

/-- ATerm tokens. -/
inductive Tok where
  | lparen
  | rparen
  | lbracket
  | rbracket
  | str (s : Str)
deriving DecidableEq

/-- Inverse of `escChar` on the character after a backslash. -/
def unescChar (c : Char) : Char :=
  if c = 'n' then '\n' else if c = 'r' then '\r' else if c = 't' then '\t' else c

/-- Modelled from the spec: the scanner's quoted-string reader (the part after
the opening quote).  `esc = true` means the previous character was an
unconsumed backslash. -/
def readQuoted : Bool → Str → Option (Str × Str)
  | _, [] => none
  | true, c :: cs => (readQuoted false cs).map (fun p => (unescChar c :: p.1, p.2))
  | false, c :: cs =>
    if c = '"' then some ([], cs)
    else if c = '\\' then readQuoted true cs
    else (readQuoted false cs).map (fun p => (c :: p.1, p.2))

/-- Modelled from the spec: `aterm.Scanner.ReadToken` — produce the next
token, skipping the comma separators; `none` on end of input or an unexpected
character. -/
def readToken : Str → Option (Tok × Str)
  | [] => none
  | c :: cs =>
    if c = ',' then readToken cs
    else if c = '(' then some (.lparen, cs)
    else if c = ')' then some (.rparen, cs)
    else if c = '[' then some (.lbracket, cs)
    else if c = ']' then some (.rbracket, cs)
    else if c = '"' then (readQuoted false cs).map (fun p => (.str p.1, p.2))
    else none

theorem readQuoted_lt : ∀ (s : Str) (esc : Bool) (v r : Str),
    readQuoted esc s = some (v, r) → r.length < s.length := by
  intro s
  induction s with
  | nil => intro esc v r h; simp [readQuoted] at h
  | cons c cs ih =>
    intro esc v r h
    cases esc with
    | true =>
      simp only [readQuoted, Option.map_eq_some'] at h
      obtain ⟨⟨v2, r2⟩, h2, h3⟩ := h
      cases h3
      have := ih false v2 r2 h2
      simpa using Nat.lt_succ_of_lt this
    | false =>
      by_cases hq : c = '"'
      · subst hq
        simp only [readQuoted, reduceIte] at h
        cases h
        simp
      · by_cases hb : c = '\\'
        · subst hb
          simp only [readQuoted, reduceIte] at h
          have := ih true v r h
          simpa using Nat.lt_succ_of_lt this
        · simp only [readQuoted, if_neg hq, if_neg hb, Option.map_eq_some'] at h
          obtain ⟨⟨v2, r2⟩, h2, h3⟩ := h
          cases h3
          have := ih false v2 r2 h2
          simpa using Nat.lt_succ_of_lt this

theorem readToken_comma (cs : Str) : readToken (',' :: cs) = readToken cs := rfl
theorem readToken_lp (cs : Str) : readToken ('(' :: cs) = some (.lparen, cs) := rfl
theorem readToken_rp (cs : Str) : readToken (')' :: cs) = some (.rparen, cs) := rfl
theorem readToken_lb (cs : Str) : readToken ('[' :: cs) = some (.lbracket, cs) := rfl
theorem readToken_rb (cs : Str) : readToken (']' :: cs) = some (.rbracket, cs) := rfl
theorem readToken_dq (cs : Str) :
    readToken ('"' :: cs) = (readQuoted false cs).map (fun p => (.str p.1, p.2)) := rfl

theorem readToken_lt : ∀ (s : Str) (t : Tok) (r : Str),
    readToken s = some (t, r) → r.length < s.length := by
  intro s
  induction s with
  | nil => intro t r h; simp [readToken] at h
  | cons c cs ih =>
    intro t r h
    by_cases hc : c = ','
    · subst hc
      rw [readToken_comma] at h
      have := ih t r h
      simpa using Nat.lt_succ_of_lt this
    · by_cases h1 : c = '('
      · subst h1; rw [readToken_lp] at h
        cases h; simp
      · by_cases h2 : c = ')'
        · subst h2; rw [readToken_rp] at h
          cases h; simp
        · by_cases h3 : c = '['
          · subst h3; rw [readToken_lb] at h
            cases h; simp
          · by_cases h4 : c = ']'
            · subst h4; rw [readToken_rb] at h
              cases h; simp
            · by_cases h5 : c = '"'
              · subst h5
                rw [readToken_dq] at h
                cases hq2 : readQuoted false cs with
                | none => rw [hq2] at h; simp at h
                | some p =>
                  rw [hq2] at h
                  simp only [Option.map_some', Option.some.injEq, Prod.mk.injEq] at h
                  have := readQuoted_lt cs false p.1 p.2 hq2
                  have hr : r = p.2 := h.2.symm
                  subst hr
                  simpa using Nat.lt_succ_of_lt this
              · simp only [readToken, if_neg hc, if_neg h1, if_neg h2, if_neg h3, if_neg h4,
                  if_neg h5] at h
                simp at h

theorem readQuoted_false_dq (cs : Str) : readQuoted false ('"' :: cs) = some ([], cs) := rfl
theorem readQuoted_false_bs (cs : Str) : readQuoted false ('\\' :: cs) = readQuoted true cs := rfl
theorem readQuoted_true_cons (c : Char) (cs : Str) :
    readQuoted true (c :: cs) = (readQuoted false cs).map (fun p => (unescChar c :: p.1, p.2)) := rfl

theorem readQuoted_false_plain {c : Char} (h1 : c ≠ '"') (h2 : c ≠ '\\') (cs : Str) :
    readQuoted false (c :: cs) = (readQuoted false cs).map (fun p => (c :: p.1, p.2)) := by
  simp [readQuoted, h1, h2]

/-- Un-escaping inverts escaping: the scanner's string reader recovers exactly
the string the writer quoted, leaving the rest of the input untouched. -/
theorem readQuoted_escape : ∀ (s rest : Str),
    readQuoted false (escape s ++ '"' :: rest) = some (s, rest) := by
  intro s
  induction s with
  | nil => intro rest; rfl
  | cons c cs ih =>
    intro rest
    show readQuoted false ((escChar c ++ escape cs) ++ '"' :: rest) = _
    rw [List.append_assoc]
    by_cases h1 : c = '\\'
    · subst h1
      rw [show escChar '\\' = ['\\', '\\'] from rfl]
      simp only [List.cons_append, List.nil_append]
      rw [readQuoted_false_bs, readQuoted_true_cons, ih]
      rfl
    · by_cases h2 : c = '"'
      · subst h2
        rw [show escChar '"' = ['\\', '"'] from rfl]
        simp only [List.cons_append, List.nil_append]
        rw [readQuoted_false_bs, readQuoted_true_cons, ih]
        rfl
      · by_cases h3 : c = '\n'
        · subst h3
          rw [show escChar '\n' = ['\\', 'n'] from rfl]
          simp only [List.cons_append, List.nil_append]
          rw [readQuoted_false_bs, readQuoted_true_cons, ih]
          rfl
        · by_cases h4 : c = '\r'
          · subst h4
            rw [show escChar '\r' = ['\\', 'r'] from rfl]
            simp only [List.cons_append, List.nil_append]
            rw [readQuoted_false_bs, readQuoted_true_cons, ih]
            rfl
          · by_cases h5 : c = '\t'
            · subst h5
              rw [show escChar '\t' = ['\\', 't'] from rfl]
              simp only [List.cons_append, List.nil_append]
              rw [readQuoted_false_bs, readQuoted_true_cons, ih]
              rfl
            · rw [show escChar c = [c] from by simp [escChar, h1, h2, h3, h4, h5]]
              simp only [List.cons_append, List.nil_append]
              rw [readQuoted_false_plain h2 h1, ih]
              rfl

/-- Reading a token off a quoted string yields that string. -/
theorem readToken_quoteStr (s rest : Str) :
    readToken (quoteStr s ++ rest) = some (.str s, rest) := by
  show readToken (('"' :: escape s ++ ['"']) ++ rest) = _
  have hs : ('"' :: escape s ++ ['"']) ++ rest = '"' :: (escape s ++ '"' :: rest) := by
    simp
  rw [hs, readToken_dq, readQuoted_escape]
  rfl

set_option maxRecDepth 8000 in
/-- Witness for C8: the `hello` derivation with output `dev`
(claim's own example) at a concrete text content address. -/
theorem c8_fixed_output_name_witness :
    ((DerivationOutput.path (some (.fixed (.text ⟨.sha256, List.replicate 32 0⟩)))
        ("/zb/store".toList) ("hello".toList) ("dev".toList)).2 = true) ∧
    (∃ digest : Str, digest.length = 32 ∧
      (DerivationOutput.path (some (.fixed (.text ⟨.sha256, List.replicate 32 0⟩)))
          ("/zb/store".toList) ("hello".toList) ("dev".toList)).1 =
        "/zb/store".toList ++ '/' :: (digest ++ '-' ::
          (if ("dev".toList : Str) = DefaultDerivationOutputName then "hello".toList
           else "hello".toList ++ '-' :: "dev".toList))) := by
  have h2 : (DerivationOutput.path (some (.fixed (.text ⟨.sha256, List.replicate 32 0⟩)))
      ("/zb/store".toList) ("hello".toList) ("dev".toList)).2 = true := by decide
  exact ⟨h2, (c8_fixed_output_name ("/zb/store".toList) ("hello".toList) ("dev".toList)
    (.text ⟨.sha256, List.replicate 32 0⟩)).2 h2⟩

/-! ## The derivation record and its ATerm marshaller. -/

/-- `Derivation` (derivation.go).  Go maps (`Env`, `InputDerivations`,
`Outputs`) are modelled as association lists with distinct keys; the
`sortedset.Set` fields (`InputSources` and the per-input output-name sets) as
lists carrying the strictly-ascending invariant. -/
structure Derivation where
  dir : Str
  name : Str
  system : Str
  builder : Str
  args : List Str
  env : List (Str × Str)
  inputSources : List Str
  inputDerivations : List (Str × List Str)
  outputs : List (Str × Option DerivationOutput)
deriving DecidableEq

/-- `sortedKeys` + map indexing (derivation.go): iterate a Go map in
ascending key order.  On the association-list model this is a sort of the
entry list by key. -/
def sortPairs {α : Type} (l : List (Str × α)) : List (Str × α) :=
  List.insertionSort keyLe l

theorem sortPairs_of_keysSorted {α : Type} {l : List (Str × α)} (h : keysSorted l) :
    sortPairs l = l := by
  apply List.Sorted.insertionSort_eq
  have hpw := List.chain'_iff_pairwise.mp h
  rw [List.pairwise_map] at hpw
  exact hpw.imp (fun hab => strLtB_asymm _ _ hab)

/-- Association-list lookup (Go map indexing). -/
def alookup {α : Type} (k : Str) : List (Str × α) → Option α
  | [] => none
  | (k2, v) :: rest => if k2 = k then some v else alookup k rest

/-- The four quoted fields of one serialized output:
`(name, path, caInfo, hashHex)`. -/
structure RawOutput where
  name : Str
  path : Str
  caInfo : Str
  hashHex : Str
deriving DecidableEq

/-- The purely syntactic content of a serialized derivation: every section in
its emitted order, all strings still unquoted. -/
structure RawDrv where
  outputs : List RawOutput
  inputDrvs : List (Str × List Str)
  inputSrcs : List Str
  system : Str
  builder : Str
  args : List Str
  env : List (Str × Str)
deriving DecidableEq

def joinComma : List Str → Str
  | [] => []
  | [x] => x
  | x :: y :: rest => x ++ ',' :: joinComma (y :: rest)

def printOutput (o : RawOutput) : Str :=
  '(' :: quoteStr o.name ++ ',' :: quoteStr o.path ++ ',' :: quoteStr o.caInfo ++
    ',' :: quoteStr o.hashHex ++ [')']

def printStrList (l : List Str) : Str := '[' :: joinComma (l.map quoteStr) ++ [']']

def printInputDrv (e : Str × List Str) : Str :=
  '(' :: quoteStr e.1 ++ ',' :: printStrList e.2 ++ [')']

def printEnvPair (e : Str × Str) : Str :=
  '(' :: quoteStr e.1 ++ ',' :: quoteStr e.2 ++ [')']

/-- The ATerm bytes of a derivation tuple, section by section
(`Derive(...)` without the leading `Derive`). -/
def printTuple (r : RawDrv) : Str :=
  '(' :: '[' :: joinComma (r.outputs.map printOutput) ++ "],[".toList ++
  joinComma (r.inputDrvs.map printInputDrv) ++ "],[".toList ++
  joinComma (r.inputSrcs.map quoteStr) ++ "],".toList ++
  quoteStr r.system ++ ',' :: quoteStr r.builder ++ ",[".toList ++
  joinComma (r.args.map quoteStr) ++ "],[".toList ++
  joinComma (r.env.map printEnvPair) ++ "])".toList

def printDerive (r : RawDrv) : Str := "Derive".toList ++ printTuple r

/-- `DerivationOutput.marshalText` (derivation.go), as the four emitted
fields: a nil output emits `(name,"","","")`; a fixed output emits its
computed store path (empty under `maskOutputs`), the method-tagged hash
algorithm and the bare base-16 hash; a floating output emits an empty path
and hash around the method-tagged algorithm.  Failure of the fixed path
computation aborts the marshal. -/
def DerivationOutput.marshalFields (out : Option DerivationOutput)
    (storeDir drvName outName : Str) (maskOutputs : Bool) : Except Str RawOutput :=
  match out with
  | none => .ok ⟨outName, [], [], []⟩
  | some (.fixed ca) =>
    let caInfo := (methodOfContentAddress ca).tag ++ ca.hash.typ.str
    let hashHex := ca.hash.rawBase16
    if maskOutputs then .ok ⟨outName, [], caInfo, hashHex⟩
    else
      let pr := DerivationOutput.path (some (.fixed ca)) storeDir drvName outName
      if pr.2 then .ok ⟨outName, pr.1, caInfo, hashHex⟩
      else .error ("marshal output: invalid path".toList)
  | some (.floating m a) => .ok ⟨outName, [], m.tag ++ a.str, []⟩

/-- Collect the per-entry results of a section, stopping at the first
failing entry exactly as the Go emission loop does. -/
def mapME {α β : Type} (f : α → Except Str β) : List α → Except Str (List β)
  | [] => .ok []
  | x :: xs => do
    let y ← f x
    let ys ← mapME f xs
    pure (y :: ys)

/-- `Derivation.marshalText` (derivation.go), factored through `RawDrv`: the
name and directory checks, then the outputs in ascending name order (with
per-output field computation), the input derivations in ascending path order
(each checked to live in the derivation's store directory), the input sources
as stored (each checked likewise), the system and builder strings, the args
in original order and the environment in ascending key order.  The first
failing check yields the same error the Go code hits; on success
`printDerive` emits exactly the bytes the Go code appends. -/
def Derivation.marshalRaw (d : Derivation) (maskOutputs : Bool) : Except Str RawDrv :=
  if d.name = [] then .error ("marshal derivation: missing name".toList)
  else if d.dir = [] then .error ("marshal derivation: missing store directory".toList)
  else do
    let outs ← mapME
      (fun e => DerivationOutput.marshalFields e.2 d.dir d.name e.1 maskOutputs)
      (sortPairs d.outputs)
    let drvs ← mapME
      (fun e => if dirOf e.1 = d.dir then .ok e
                else .error ("marshal derivation: inputs: unexpected store directory".toList))
      (sortPairs d.inputDerivations)
    let srcs ← mapME
      (fun s => if dirOf s = d.dir then .ok s
                else .error ("marshal derivation: inputs: unexpected store directory".toList))
      d.inputSources
    pure ⟨outs, drvs, srcs, d.system, d.builder, d.args, sortPairs d.env⟩

/-- `Derivation.marshalText` (derivation.go): the emitted ATerm bytes. -/
def Derivation.marshalText (d : Derivation) (maskOutputs : Bool) : Except Str Str :=
  (d.marshalRaw maskOutputs).map printDerive

/-- `Derivation.MarshalText` (derivation.go). -/
def Derivation.MarshalTextPub (d : Derivation) : Except Str Str := d.marshalText false

/-! ## The ATerm derivation parser. -/

/-- Read one token and require a specific kind (the parser's
`ReadToken` + kind-check steps). -/
def expectTok (want : Tok) (msg : Str) (s : Str) : Except Str Str :=
  match readToken s with
  | some (t, r) => if t = want then .ok r else .error msg
  | none => .error msg

/-- Read one token and require a string. -/
def expectStr (msg : Str) (s : Str) : Except Str (Str × Str) :=
  match readToken s with
  | some (.str v, r) => .ok (v, r)
  | some _ => .error msg
  | none => .error msg

theorem expectTok_lt {want : Tok} {msg s r : Str} (h : expectTok want msg s = .ok r) :
    r.length < s.length := by
  unfold expectTok at h
  split at h
  · split at h
    · cases h
      exact readToken_lt s _ r (by assumption)
    · exact absurd h (by simp)
  · exact absurd h (by simp)

theorem expectStr_lt {msg s : Str} {v r : Str} (h : expectStr msg s = .ok (v, r)) :
    r.length < s.length := by
  unfold expectStr at h
  split at h
  · cases h
    exact readToken_lt s _ r (by assumption)
  · exact absurd h (by simp)
  · exact absurd h (by simp)

theorem exceptBind_ok {α β : Type} {x : Except Str α} {f : α → Except Str β} {b : β}
    (h : (x >>= f) = .ok b) : ∃ a, x = .ok a ∧ f a = .ok b := by
  cases x with
  | error e => exact absurd h (by simp [Bind.bind, Except.bind])
  | ok a => exact ⟨a, rfl, by simpa [Bind.bind, Except.bind] using h⟩

/-- The classification tail of `parseDerivationOutput` (derivation.go): parse
the hash algorithm, hex-decode the hash, then build a floating output (empty
path and hash), a fixed output (nonempty hash of the right width), or fail. -/
def outputFromFields (outName p caInfo hashHex : Str) : Except Str DerivationOutput :=
  match parseHashAlgorithm caInfo with
  | .error e => .error e
  | .ok (method, hashAlgo) =>
    match hexDecode hashHex with
    | none => .error ("parse output: hash: invalid".toList)
    | some hashBits =>
      if p = [] ∧ hashHex = [] then .ok (.floating method hashAlgo)
      else if hashHex ≠ [] then
        if hashBits.length ≠ hashAlgo.size then
          .error ("parse output: hash: incorrect size".toList)
        else
          match method with
          | .flat => .ok (FixedCAOutput (.flat ⟨hashAlgo, hashBits⟩))
          | .recursive => .ok (FixedCAOutput (.recursive ⟨hashAlgo, hashBits⟩))
          | .text => .ok (FixedCAOutput (.text ⟨hashAlgo, hashBits⟩))
      else .error ("parse output: unknown type".toList)

/-- `parseDerivationOutput` (derivation.go): `(name, path, caInfo, hashHex)`
then classification. -/
def parseDerivationOutput (s : Str) : Except Str (Str × DerivationOutput × Str) := do
  let r1 ← expectTok .lparen ("parse output: expected open paren".toList) s
  let (outName, r2) ← expectStr ("parse output: name: expected string".toList) r1
  let (p, r3) ← expectStr ("parse output: path: expected string".toList) r2
  let (caInfo, r4) ← expectStr ("parse output: hash algorithm: expected string".toList) r3
  let (hashHex, r5) ← expectStr ("parse output: hash: expected string".toList) r4
  let r6 ← expectTok .rparen ("parse output: expected close paren".toList) r5
  let out ← outputFromFields outName p caInfo hashHex
  pure (outName, out, r6)

theorem parseDerivationOutput_lt {s : Str} {n : Str} {o : DerivationOutput} {r : Str}
    (h : parseDerivationOutput s = .ok (n, o, r)) : r.length < s.length := by
  unfold parseDerivationOutput at h
  obtain ⟨r1, h1, h⟩ := exceptBind_ok h
  obtain ⟨⟨outName, r2⟩, h2, h⟩ := exceptBind_ok h
  obtain ⟨⟨p, r3⟩, h3, h⟩ := exceptBind_ok h
  obtain ⟨⟨caInfo, r4⟩, h4, h⟩ := exceptBind_ok h
  obtain ⟨⟨hashHex, r5⟩, h5, h⟩ := exceptBind_ok h
  obtain ⟨r6, h6, h⟩ := exceptBind_ok h
  obtain ⟨out, h7, h⟩ := exceptBind_ok h
  have hr : r = r6 := by
    simp [Pure.pure, Except.pure] at h
    exact h.2.2.symm
  subst hr
  have l1 := expectTok_lt h1
  have l2 := expectStr_lt h2
  have l3 := expectStr_lt h3
  have l4 := expectStr_lt h4
  have l5 := expectStr_lt h5
  have l6 := expectTok_lt h6
  omega

/-- The `parseStringList` loop (derivation.go): strings fed to the callback
until the closing bracket.  The length guard before the recursive call is the
termination measure only; it always holds, because a successful `readToken`
consumes at least one character (`readToken_lt`), so the `else` branch is
dead code. -/
def parseStrListLoop {σ : Type} (f : σ → Str → Except Str σ) (acc : σ) (s : Str) :
    Except Str (σ × Str) :=
  match readToken s with
  | some (.str v, r) =>
    match f acc v with
    | .ok acc2 =>
      if hlen : r.length < s.length then parseStrListLoop f acc2 r
      else .error ("unreachable: scanner did not consume input".toList)
    | .error e => .error e
  | some (.rbracket, r) => .ok (acc, r)
  | some _ => .error ("expected string or close bracket".toList)
  | none => .error ("expected string or close bracket".toList)
termination_by s.length
decreasing_by exact hlen

/-- `parseStringList` (derivation.go): the opening bracket, then the loop. -/
def parseStringListF {σ : Type} (f : σ → Str → Except Str σ) (init : σ) (s : Str) :
    Except Str (σ × Str) :=
  match readToken s with
  | some (.lbracket, r) => parseStrListLoop f init r
  | some _ => .error ("expected open bracket".toList)
  | none => .error ("expected open bracket".toList)

/-- `parseInputDerivation` (derivation.go): `(drvPath, [outputName ...])`,
the output names accumulated through `sortedset.Set.Add`, and the path
validated last. -/
def parseInputDerivation (s : Str) : Except Str (Str × List Str × Str) := do
  let r1 ← expectTok .lparen ("parse input derivation: expected open paren".toList) s
  let (drvPathStr, r2) ← expectStr ("parse input derivation: name: expected string".toList) r1
  let (names, r3) ← parseStringListF (fun acc v => .ok (ssInsert v acc)) [] r2
  let r4 ← expectTok .rparen ("parse input derivation: expected close paren".toList) r3
  match parsePath drvPathStr with
  | none => .error ("parse input derivation: invalid path".toList)
  | some p => pure (p, names, r4)

/-- The outputs loop of `Derivation.parseTuple` (derivation.go): entries until
the closing bracket, rejecting duplicate output names.  The Go scanner's
`UnreadToken` before each entry is modelled by re-parsing from the same
position.  The length guard is the termination measure only: it always holds
(`parseDerivationOutput_lt`), so the `else` branch is dead code. -/
def outputsLoop (acc : List (Str × Option DerivationOutput)) (s : Str) :
    Except Str (List (Str × Option DerivationOutput) × Str) :=
  match readToken s with
  | none => .error ("parse derivation: outputs: scan error".toList)
  | some (.rbracket, r) => .ok (acc, r)
  | some _ =>
    match parseDerivationOutput s with
    | .error e => .error e
    | .ok (n, o, r) =>
      if (alookup n acc).isSome then
        .error ("parse derivation: multiple outputs with same name".toList)
      else if hlen : r.length < s.length then outputsLoop (acc ++ [(n, some o)]) r
      else .error ("unreachable: parser did not consume input".toList)
termination_by s.length
decreasing_by exact hlen

/-- The input-derivations loop of `Derivation.parseTuple` (derivation.go):
entries until the closing bracket, rejecting paths outside the derivation's
store directory and duplicate paths, in that order.  The length guard is the
termination measure only and always holds. -/
def inputDrvsLoop (dirD : Str) (acc : List (Str × List Str)) (s : Str) :
    Except Str (List (Str × List Str) × Str) :=
  match readToken s with
  | none => .error ("parse derivation: inputs: scan error".toList)
  | some (.rbracket, r) => .ok (acc, r)
  | some _ =>
    match parseInputDerivation s with
    | .error e => .error e
    | .ok (drvPath, outputNames, r) =>
      if dirOf drvPath ≠ dirD then
        .error ("parse derivation: input derivation not in directory".toList)
      else if (alookup drvPath acc).isSome then
        .error ("parse derivation: multiple input derivations for path".toList)
      else if hlen : r.length < s.length then
        inputDrvsLoop dirD (acc ++ [(drvPath, outputNames)]) r
      else .error ("unreachable: parser did not consume input".toList)
termination_by s.length
decreasing_by exact hlen

/-- The loop of `Derivation.parseEnv` (derivation.go): `(key, value)` pairs
until the closing bracket, rejecting a duplicate key as soon as it is read.
The length guard is the termination measure only and always holds
(`readToken_lt` four times). -/
def envLoop (acc : List (Str × Str)) (s : Str) : Except Str (List (Str × Str) × Str) :=
  match readToken s with
  | none => .error ("parse derivation: env: scan error".toList)
  | some (.rbracket, r) => .ok (acc, r)
  | some (.lparen, r1) =>
    match readToken r1 with
    | some (.str k, r2) =>
      if (alookup k acc).isSome then
        .error ("parse derivation: env: multiple entries for key".toList)
      else
        match readToken r2 with
        | some (.str v, r3) =>
          match readToken r3 with
          | some (.rparen, r4) =>
            if hlen : r4.length < s.length then envLoop (acc ++ [(k, v)]) r4
            else .error ("unreachable: scanner did not consume input".toList)
          | some _ => .error ("parse derivation: env: expected close paren".toList)
          | none => .error ("parse derivation: env: expected close paren".toList)
        | some _ => .error ("parse derivation: env: expected string".toList)
        | none => .error ("parse derivation: env: expected string".toList)
    | some _ => .error ("parse derivation: env: expected string".toList)
    | none => .error ("parse derivation: env: expected string".toList)
  | some _ => .error ("parse derivation: env: expected close bracket or open paren".toList)
termination_by s.length
decreasing_by exact hlen

/-- The input-sources callback of `parseTuple` (derivation.go): validate the
path and add it to the sorted set. -/
def srcF (acc : List Str) (v : Str) : Except Str (List Str) :=
  match parsePath v with
  | none => .error ("parse derivation: input sources: invalid path".toList)
  | some pp => .ok (ssInsert pp acc)

/-- `Derivation.parseTuple` (derivation.go): the whole tuple in order —
outputs, input derivations, input sources (each validated and added to the
sorted set), system, builder, args, env, closing parenthesis. -/
def parseTuple (dirD nameD : Str) (s : Str) : Except Str (Derivation × Str) := do
  let r1 ← expectTok .lparen ("parse derivation: expected open paren".toList) s
  let r2 ← expectTok .lbracket ("parse derivation: expected open bracket".toList) r1
  let (outs, r3) ← outputsLoop [] r2
  let r4 ← expectTok .lbracket ("parse derivation: expected open bracket after outputs".toList) r3
  let (drvs, r5) ← inputDrvsLoop dirD [] r4
  let (srcs, r6) ← parseStringListF srcF [] r5
  let (sys, r7) ← expectStr ("parse derivation: system: expected string".toList) r6
  let (bld, r8) ← expectStr ("parse derivation: builder: expected string".toList) r7
  let (args, r9) ← parseStringListF (fun acc v => .ok (acc ++ [v])) [] r8
  let r10 ← expectTok .lbracket ("parse derivation: env: expected open bracket".toList) r9
  let (envs, r11) ← envLoop [] r10
  let r12 ← expectTok .rparen ("parse derivation: expected close paren".toList) r11
  pure (⟨dirD, nameD, sys, bld, args, envs, srcs, drvs, outs⟩, r12)

/-- `ParseDerivation` (derivation.go): strip the `Derive` constructor, parse
the tuple, and reject trailing data. -/
def ParseDerivation (dirD nameD : Str) (data : Str) : Except Str Derivation :=
  match cutPre ("Derive".toList) data with
  | none => .error ("parse derivation: Derive constructor not found".toList)
  | some rest =>
    match parseTuple dirD nameD rest with
    | .error e => .error e
    | .ok (drv, r) =>
      if r = [] then .ok drv else .error ("parse derivation: trailing data".toList)

/-! ## Parsing printed input: step lemmas. -/

theorem bind_ok' {α β : Type} (a : α) (f : α → Except Str β) :
    ((.ok a : Except Str α) >>= f) = f a := rfl

theorem bind_err' {α β : Type} (e : Str) (f : α → Except Str β) :
    ((.error e : Except Str α) >>= f) = .error e := rfl

theorem expectTok_lp (m X : Str) : expectTok .lparen m ('(' :: X) = .ok X := by
  simp [expectTok, readToken_lp]

theorem expectTok_rp (m X : Str) : expectTok .rparen m (')' :: X) = .ok X := by
  simp [expectTok, readToken_rp]

theorem expectTok_lb (m X : Str) : expectTok .lbracket m ('[' :: X) = .ok X := by
  simp [expectTok, readToken_lb]

theorem expectTok_comma (w : Tok) (m X : Str) :
    expectTok w m (',' :: X) = expectTok w m X := by
  simp [expectTok, readToken_comma]

theorem expectStr_comma (m X : Str) : expectStr m (',' :: X) = expectStr m X := by
  simp [expectStr, readToken_comma]

theorem expectStr_quote (m v X : Str) : expectStr m (quoteStr v ++ X) = .ok (v, X) := by
  simp [expectStr, readToken_quoteStr]

theorem alookup_eq_none {α : Type} (k : Str) : ∀ l : List (Str × α),
    alookup k l = none ↔ k ∉ l.map Prod.fst := by
  intro l
  induction l with
  | nil => simp [alookup]
  | cons e rest ih =>
    obtain ⟨k2, v⟩ := e
    simp only [alookup, List.map_cons, List.mem_cons]
    by_cases hk : k2 = k
    · subst hk
      simp only [if_pos rfl]
      constructor
      · intro h; exact absurd h (by simp)
      · intro h; exact absurd (Or.inl trivial) h
    · simp only [if_neg hk]
      rw [ih]
      constructor
      · intro h hmem
        rcases hmem with h1 | h2
        · exact hk h1.symm
        · exact h h2
      · intro h hmem
        exact h (Or.inr hmem)

/-- A strictly key-sorted association list has distinct keys. -/
theorem keysSorted_nodup {α : Type} {l : List (Str × α)} (h : keysSorted l) :
    (l.map Prod.fst).Nodup := by
  have hpw := List.chain'_iff_pairwise.mp h
  exact hpw.imp (fun {a b} hab => by
    intro heq
    subst heq
    rw [strLtB_irrefl] at hab
    exact absurd hab (by simp))

/-- Error-propagating fold, the result of feeding a printed string list
through a `parseStringList` callback element by element. -/
def foldE {σ : Type} (f : σ → Str → Except Str σ) : σ → List Str → Except Str σ
  | acc, [] => .ok acc
  | acc, x :: xs =>
    match f acc x with
    | .error e => .error e
    | .ok acc2 => foldE f acc2 xs

theorem mapME_ok {α β : Type} {f : α → Except Str β} {g : α → β} : ∀ {l : List α},
    (∀ x ∈ l, f x = .ok (g x)) → mapME f l = .ok (l.map g) := by
  intro l
  induction l with
  | nil => intro _; rfl
  | cons x xs ih =>
    intro h
    have hx := h x (by simp)
    have hxs := ih (fun y hy => h y (by simp [hy]))
    simp [mapME, hx, hxs, bind_ok', Pure.pure, Except.pure]

theorem mapME_ok_values {α β : Type} {f : α → Except Str β} {g : α → β}
    (hg : ∀ x v, f x = .ok v → v = g x) : ∀ {l : List α} {ys : List β},
    mapME f l = .ok ys → ys = l.map g := by
  intro l
  induction l with
  | nil =>
    intro ys h
    simp only [mapME] at h
    cases h
    rfl
  | cons x xs ih =>
    intro ys h
    simp only [mapME] at h
    obtain ⟨v, hv, h⟩ := exceptBind_ok h
    obtain ⟨vs, hvs, h⟩ := exceptBind_ok h
    simp only [Pure.pure, Except.pure, Except.ok.injEq] at h
    subst h
    rw [hg x v hv, ih hvs]
    rfl

/-! ## The parse of a printed derivation, section by section. -/

/-- What the outputs loop computes on the printed entry list. -/
def outputsSpec : List (Str × Option DerivationOutput) → List RawOutput →
    Except Str (List (Str × Option DerivationOutput))
  | acc, [] => .ok acc
  | acc, o :: rest =>
    match outputFromFields o.name o.path o.caInfo o.hashHex with
    | .error e => .error e
    | .ok out =>
      if (alookup o.name acc).isSome then
        .error ("parse derivation: multiple outputs with same name".toList)
      else outputsSpec (acc ++ [(o.name, some out)]) rest

/-- What the input-derivations loop computes on the printed entry list. -/
def inputDrvsSpec (dirD : Str) : List (Str × List Str) → List (Str × List Str) →
    Except Str (List (Str × List Str))
  | acc, [] => .ok acc
  | acc, (p, names) :: rest =>
    match parsePath p with
    | none => .error ("parse input derivation: invalid path".toList)
    | some pp =>
      if dirOf pp ≠ dirD then
        .error ("parse derivation: input derivation not in directory".toList)
      else if (alookup pp acc).isSome then
        .error ("parse derivation: multiple input derivations for path".toList)
      else inputDrvsSpec dirD (acc ++ [(pp, names.foldl (fun a v => ssInsert v a) [])]) rest

/-- What the env loop computes on the printed entry list. -/
def envSpec : List (Str × Str) → List (Str × Str) → Except Str (List (Str × Str))
  | acc, [] => .ok acc
  | acc, (k, v) :: rest =>
    if (alookup k acc).isSome then
      .error ("parse derivation: env: multiple entries for key".toList)
    else envSpec (acc ++ [(k, v)]) rest

/-- What `parseTuple` computes on a printed derivation tuple. -/
def tupleSpec (dirD nameD : Str) (raw : RawDrv) : Except Str Derivation :=
  match outputsSpec [] raw.outputs with
  | .error e => .error e
  | .ok outs =>
    match inputDrvsSpec dirD [] raw.inputDrvs with
    | .error e => .error e
    | .ok drvs =>
      match foldE srcF [] raw.inputSrcs with
      | .error e => .error e
      | .ok srcs =>
        match envSpec [] raw.env with
        | .error e => .error e
        | .ok envs =>
          .ok ⟨dirD, nameD, raw.system, raw.builder, raw.args, envs, srcs, drvs, outs⟩

theorem printOutput_shape (o : RawOutput) (K : Str) :
    printOutput o ++ K =
      '(' :: (quoteStr o.name ++ ',' :: (quoteStr o.path ++ ',' ::
        (quoteStr o.caInfo ++ ',' :: (quoteStr o.hashHex ++ ')' :: K)))) := by
  simp [printOutput]

/-- Parsing one printed output entry: the tokens always scan; the result is
exactly the classification of the four fields, consuming precisely the
entry. -/
theorem parseDerivationOutput_print (o : RawOutput) (K : Str) :
    parseDerivationOutput (printOutput o ++ K) =
      (outputFromFields o.name o.path o.caInfo o.hashHex).map (fun out => (o.name, out, K)) := by
  rw [printOutput_shape]
  unfold parseDerivationOutput
  simp only [expectTok_lp, expectStr_quote, expectStr_comma, expectTok_rp, bind_ok']
  rcases hof : outputFromFields o.name o.path o.caInfo o.hashHex with e | out
  · rfl
  · rfl

theorem parseDerivationOutput_comma (X : Str) :
    parseDerivationOutput (',' :: X) = parseDerivationOutput X := by
  unfold parseDerivationOutput
  rw [expectTok_comma]

theorem quoteStr_length_pos (s : Str) : 0 < (quoteStr s).length := by
  simp [quoteStr]

theorem printOutput_length_pos (o : RawOutput) : 0 < (printOutput o).length := by
  simp [printOutput]

theorem printInputDrv_length_pos (e : Str × List Str) : 0 < (printInputDrv e).length := by
  simp [printInputDrv]

/-- An optional comma separator in front of a printed section entry. -/
def sepStr (pre : Bool) : Str := if pre then [','] else []

theorem readToken_sep (pre : Bool) (X : Str) : readToken (sepStr pre ++ X) = readToken X := by
  cases pre
  · rfl
  · exact readToken_comma X

theorem parseDerivationOutput_sep (pre : Bool) (X : Str) :
    parseDerivationOutput (sepStr pre ++ X) = parseDerivationOutput X := by
  cases pre
  · rfl
  · exact parseDerivationOutput_comma X

/-- One printed output entry (optionally preceded by the separating comma)
advances the outputs loop exactly one step. -/
theorem outputsLoop_entry (pre : Bool) (acc : List (Str × Option DerivationOutput))
    (o : RawOutput) (M : Str) :
    outputsLoop acc (sepStr pre ++ (printOutput o ++ M)) =
      (match outputFromFields o.name o.path o.caInfo o.hashHex with
      | .error e => .error e
      | .ok out =>
        if (alookup o.name acc).isSome then
          .error ("parse derivation: multiple outputs with same name".toList)
        else outputsLoop (acc ++ [(o.name, some out)]) M) := by
  conv_lhs => unfold outputsLoop
  rw [readToken_sep]
  rw [printOutput_shape]
  simp only [readToken_lp]
  rw [← printOutput_shape, parseDerivationOutput_sep, parseDerivationOutput_print]
  rcases hof : outputFromFields o.name o.path o.caInfo o.hashHex with e | out
  · rfl
  · simp only [Except.map]
    by_cases hdup : (alookup o.name acc).isSome
    · simp [hdup]
    · have hlen : M.length < (sepStr pre ++ (printOutput o ++ M)).length := by
        rw [List.length_append, List.length_append]
        have := printOutput_length_pos o
        omega
      simp only [hdup, Bool.false_eq_true, if_false, dif_pos hlen]

/-- The outputs loop on a printed outputs section. -/
theorem outputsLoop_print_pre : ∀ (entries : List RawOutput)
    (acc : List (Str × Option DerivationOutput)) (rest : Str) (pre : Bool),
    outputsLoop acc (sepStr pre ++ (joinComma (entries.map printOutput) ++ ']' :: rest)) =
      (outputsSpec acc entries).map (fun l => (l, rest)) := by
  intro entries
  induction entries with
  | nil =>
    intro acc rest pre
    show outputsLoop acc (sepStr pre ++ (']' :: rest)) = _
    conv_lhs => unfold outputsLoop
    rw [readToken_sep, readToken_rb]
    rfl
  | cons e es ih =>
    intro acc rest pre
    have hs : sepStr pre ++ (joinComma ((e :: es).map printOutput) ++ ']' :: rest) =
        sepStr pre ++ (printOutput e ++ (match es with
          | [] => ']' :: rest
          | _ :: _ => ',' :: (joinComma (es.map printOutput) ++ ']' :: rest))) := by
      cases es with
      | nil => simp [joinComma]
      | cons x xs => simp [joinComma]
    rw [hs, outputsLoop_entry]
    rcases hof : outputFromFields e.name e.path e.caInfo e.hashHex with er | out
    · simp [outputsSpec, hof, Except.map]
    · simp only [outputsSpec, hof]
      by_cases hdup : (alookup e.name acc).isSome
      · simp [hdup, Except.map]
      · simp only [hdup, Bool.false_eq_true, if_false]
        cases es with
        | nil => simpa [sepStr, joinComma] using ih (acc ++ [(e.name, some out)]) rest false
        | cons x xs => simpa [sepStr] using ih (acc ++ [(e.name, some out)]) rest true

theorem outputsLoop_print (entries : List RawOutput)
    (acc : List (Str × Option DerivationOutput)) (rest : Str) :
    outputsLoop acc (joinComma (entries.map printOutput) ++ ']' :: rest) =
      (outputsSpec acc entries).map (fun l => (l, rest)) := by
  simpa [sepStr] using outputsLoop_print_pre entries acc rest false

/-- One printed string entry advances the string-list loop one step. -/
theorem parseStrListLoop_quote (pre : Bool) {σ : Type} (f : σ → Str → Except Str σ)
    (acc : σ) (v X : Str) :
    parseStrListLoop f acc (sepStr pre ++ (quoteStr v ++ X)) =
      (match f acc v with
      | .ok acc2 => parseStrListLoop f acc2 X
      | .error e => .error e) := by
  conv_lhs => unfold parseStrListLoop
  rw [readToken_sep]
  simp only [readToken_quoteStr]
  rcases hf : f acc v with e | acc2
  · rfl
  · have hlen : X.length < (sepStr pre ++ (quoteStr v ++ X)).length := by
      rw [List.length_append, List.length_append]
      have := quoteStr_length_pos v
      omega
    simp only [dif_pos hlen]

theorem parseStrListLoop_print_pre {σ : Type} (f : σ → Str → Except Str σ) :
    ∀ (xs : List Str) (acc : σ) (rest : Str) (pre : Bool),
    parseStrListLoop f acc (sepStr pre ++ (joinComma (xs.map quoteStr) ++ ']' :: rest)) =
      (foldE f acc xs).map (fun a => (a, rest)) := by
  intro xs
  induction xs with
  | nil =>
    intro acc rest pre
    show parseStrListLoop f acc (sepStr pre ++ (']' :: rest)) = _
    conv_lhs => unfold parseStrListLoop
    rw [readToken_sep, readToken_rb]
    rfl
  | cons v vs ih =>
    intro acc rest pre
    have hs : sepStr pre ++ (joinComma ((v :: vs).map quoteStr) ++ ']' :: rest) =
        sepStr pre ++ (quoteStr v ++ (match vs with
          | [] => ']' :: rest
          | _ :: _ => ',' :: (joinComma (vs.map quoteStr) ++ ']' :: rest))) := by
      cases vs with
      | nil => simp [joinComma]
      | cons x xs => simp [joinComma]
    rw [hs, parseStrListLoop_quote]
    rcases hf : f acc v with e | acc2
    · simp [foldE, hf, Except.map]
    · simp only [foldE, hf]
      cases vs with
      | nil => simpa [sepStr, joinComma] using ih acc2 rest false
      | cons x xs => simpa [sepStr] using ih acc2 rest true

theorem parseStringListF_comma {σ : Type} (f : σ → Str → Except Str σ) (init : σ) (X : Str) :
    parseStringListF f init (',' :: X) = parseStringListF f init X := by
  unfold parseStringListF
  rw [readToken_comma]

theorem parseStringListF_print {σ : Type} (f : σ → Str → Except Str σ) (init : σ)
    (xs : List Str) (rest : Str) :
    parseStringListF f init ('[' :: (joinComma (xs.map quoteStr) ++ ']' :: rest)) =
      (foldE f init xs).map (fun a => (a, rest)) := by
  unfold parseStringListF
  simp only [readToken_lb]
  simpa [sepStr] using parseStrListLoop_print_pre f xs init rest false

theorem foldE_ssInsert (xs : List Str) (acc : List Str) :
    foldE (fun a v => .ok (ssInsert v a)) acc xs =
      .ok (xs.foldl (fun a v => ssInsert v a) acc) := by
  induction xs generalizing acc with
  | nil => rfl
  | cons x xs ih => simp [foldE, List.foldl, ih]

theorem printInputDrv_shape (p : Str) (names : List Str) (K : Str) :
    printInputDrv (p, names) ++ K =
      '(' :: (quoteStr p ++ ',' :: ('[' :: (joinComma (names.map quoteStr) ++
        ']' :: ')' :: K))) := by
  simp [printInputDrv, printStrList]

theorem parseInputDerivation_print (p : Str) (names : List Str) (K : Str) :
    parseInputDerivation (printInputDrv (p, names) ++ K) =
      (match parsePath p with
      | none => .error ("parse input derivation: invalid path".toList)
      | some pp => .ok (pp, names.foldl (fun a v => ssInsert v a) [], K)) := by
  rw [printInputDrv_shape]
  unfold parseInputDerivation
  simp only [expectTok_lp, bind_ok', expectStr_quote, expectStr_comma]
  rw [parseStringListF_comma, parseStringListF_print, foldE_ssInsert]
  simp only [Except.map, bind_ok', expectTok_rp]
  rcases hp : parsePath p with _ | pp
  · rfl
  · rfl

theorem parseInputDerivation_comma (X : Str) :
    parseInputDerivation (',' :: X) = parseInputDerivation X := by
  unfold parseInputDerivation
  rw [expectTok_comma]

theorem parseInputDerivation_sep (pre : Bool) (X : Str) :
    parseInputDerivation (sepStr pre ++ X) = parseInputDerivation X := by
  cases pre
  · rfl
  · exact parseInputDerivation_comma X

/-- One printed input-derivation entry advances the loop one step. -/
theorem inputDrvsLoop_entry (pre : Bool) (dirD : Str) (acc : List (Str × List Str))
    (p : Str) (names : List Str) (M : Str) :
    inputDrvsLoop dirD acc (sepStr pre ++ (printInputDrv (p, names) ++ M)) =
      (match parsePath p with
      | none => .error ("parse input derivation: invalid path".toList)
      | some pp =>
        if dirOf pp ≠ dirD then
          .error ("parse derivation: input derivation not in directory".toList)
        else if (alookup pp acc).isSome then
          .error ("parse derivation: multiple input derivations for path".toList)
        else inputDrvsLoop dirD
          (acc ++ [(pp, names.foldl (fun a v => ssInsert v a) [])]) M) := by
  conv_lhs => unfold inputDrvsLoop
  rw [readToken_sep]
  rw [printInputDrv_shape]
  simp only [readToken_lp]
  rw [← printInputDrv_shape, parseInputDerivation_sep, parseInputDerivation_print]
  rcases hp : parsePath p with _ | pp
  · rfl
  · by_cases hdir : dirOf pp ≠ dirD
    · simp [hdir]
    · simp only [hdir, if_false]
      by_cases hdup : (alookup pp acc).isSome
      · simp [hdup]
      · have hlen : M.length < (sepStr pre ++ (printInputDrv (p, names) ++ M)).length := by
          rw [List.length_append, List.length_append]
          have := printInputDrv_length_pos (p, names)
          omega
        simp only [hdup, Bool.false_eq_true, if_false, dif_pos hlen]

/-- The input-derivations loop on a printed section. -/
theorem inputDrvsLoop_print_pre (dirD : Str) : ∀ (entries : List (Str × List Str))
    (acc : List (Str × List Str)) (rest : Str) (pre : Bool),
    inputDrvsLoop dirD acc (sepStr pre ++ (joinComma (entries.map printInputDrv) ++ ']' :: rest)) =
      (inputDrvsSpec dirD acc entries).map (fun l => (l, rest)) := by
  intro entries
  induction entries with
  | nil =>
    intro acc rest pre
    show inputDrvsLoop dirD acc (sepStr pre ++ (']' :: rest)) = _
    conv_lhs => unfold inputDrvsLoop
    rw [readToken_sep, readToken_rb]
    rfl
  | cons e es ih =>
    intro acc rest pre
    obtain ⟨p, names⟩ := e
    have hs : sepStr pre ++ (joinComma (((p, names) :: es).map printInputDrv) ++ ']' :: rest) =
        sepStr pre ++ (printInputDrv (p, names) ++ (match es with
          | [] => ']' :: rest
          | _ :: _ => ',' :: (joinComma (es.map printInputDrv) ++ ']' :: rest))) := by
      cases es with
      | nil => simp [joinComma]
      | cons x xs => simp [joinComma]
    rw [hs, inputDrvsLoop_entry]
    rcases hp : parsePath p with _ | pp
    · simp [inputDrvsSpec, hp, Except.map]
    · simp only [inputDrvsSpec, hp]
      by_cases hdir : dirOf pp ≠ dirD
      · simp [hdir, Except.map]
      · simp only [hdir, if_false]
        by_cases hdup : (alookup pp acc).isSome
        · simp [hdup, Except.map]
        · simp only [hdup, Bool.false_eq_true, if_false]
          cases es with
          | nil =>
            have hh := ih (acc ++ [(pp, names.foldl (fun a v => ssInsert v a) [])]) rest false
            simpa [sepStr, joinComma] using hh
          | cons x xs =>
            have hh := ih (acc ++ [(pp, names.foldl (fun a v => ssInsert v a) [])]) rest true
            simpa [sepStr] using hh

theorem inputDrvsLoop_print (dirD : Str) (entries : List (Str × List Str))
    (acc : List (Str × List Str)) (rest : Str) :
    inputDrvsLoop dirD acc (joinComma (entries.map printInputDrv) ++ ']' :: rest) =
      (inputDrvsSpec dirD acc entries).map (fun l => (l, rest)) := by
  simpa [sepStr] using inputDrvsLoop_print_pre dirD entries acc rest false

theorem printEnvPair_shape (k v K : Str) :
    printEnvPair (k, v) ++ K = '(' :: (quoteStr k ++ ',' :: (quoteStr v ++ ')' :: K)) := by
  simp [printEnvPair]

theorem printEnvPair_length_pos (e : Str × Str) : 0 < (printEnvPair e).length := by
  simp [printEnvPair]

/-- One printed env entry advances the env loop one step. -/
theorem envLoop_entry (pre : Bool) (acc : List (Str × Str)) (k v M : Str) :
    envLoop acc (sepStr pre ++ (printEnvPair (k, v) ++ M)) =
      (if (alookup k acc).isSome then
        .error ("parse derivation: env: multiple entries for key".toList)
      else envLoop (acc ++ [(k, v)]) M) := by
  conv_lhs => unfold envLoop
  rw [readToken_sep]
  rw [printEnvPair_shape]
  simp only [readToken_lp, readToken_quoteStr, readToken_comma, readToken_rp]
  by_cases hdup : (alookup k acc).isSome
  · simp [hdup]
  · have hlen : M.length <
        (sepStr pre ++ ('(' :: (quoteStr k ++ ',' :: (quoteStr v ++ ')' :: M)))).length := by
      simp [List.length_append]
      omega
    simp only [hdup, Bool.false_eq_true, if_false, dif_pos hlen]

/-- The env loop on a printed section. -/
theorem envLoop_print_pre : ∀ (entries : List (Str × Str)) (acc : List (Str × Str))
    (rest : Str) (pre : Bool),
    envLoop acc (sepStr pre ++ (joinComma (entries.map printEnvPair) ++ ']' :: rest)) =
      (envSpec acc entries).map (fun l => (l, rest)) := by
  intro entries
  induction entries with
  | nil =>
    intro acc rest pre
    show envLoop acc (sepStr pre ++ (']' :: rest)) = _
    conv_lhs => unfold envLoop
    rw [readToken_sep, readToken_rb]
    rfl
  | cons e es ih =>
    intro acc rest pre
    obtain ⟨k, v⟩ := e
    have hs : sepStr pre ++ (joinComma (((k, v) :: es).map printEnvPair) ++ ']' :: rest) =
        sepStr pre ++ (printEnvPair (k, v) ++ (match es with
          | [] => ']' :: rest
          | _ :: _ => ',' :: (joinComma (es.map printEnvPair) ++ ']' :: rest))) := by
      cases es with
      | nil => simp [joinComma]
      | cons x xs => simp [joinComma]
    rw [hs, envLoop_entry]
    by_cases hdup : (alookup k acc).isSome
    · simp [hdup, envSpec, Except.map]
    · simp only [hdup, Bool.false_eq_true, if_false, envSpec]
      cases es with
      | nil => simpa [sepStr, joinComma] using ih (acc ++ [(k, v)]) rest false
      | cons x xs => simpa [sepStr] using ih (acc ++ [(k, v)]) rest true

theorem envLoop_print (entries : List (Str × Str)) (acc : List (Str × Str)) (rest : Str) :
    envLoop acc (joinComma (entries.map printEnvPair) ++ ']' :: rest) =
      (envSpec acc entries).map (fun l => (l, rest)) := by
  simpa [sepStr] using envLoop_print_pre entries acc rest false

theorem foldE_append (xs acc : List Str) :
    foldE (fun a v => .ok (a ++ [v])) acc xs = .ok (acc ++ xs) := by
  induction xs generalizing acc with
  | nil => simp [foldE]
  | cons x rest ih => simp [foldE, ih]

theorem printTuple_shape (raw : RawDrv) (rest : Str) :
    printTuple raw ++ rest =
      '(' :: '[' :: (joinComma (raw.outputs.map printOutput) ++ ']' :: ',' :: '[' ::
        (joinComma (raw.inputDrvs.map printInputDrv) ++ ']' :: ',' :: '[' ::
          (joinComma (raw.inputSrcs.map quoteStr) ++ ']' :: ',' ::
            (quoteStr raw.system ++ ',' ::
              (quoteStr raw.builder ++ ',' :: '[' ::
                (joinComma (raw.args.map quoteStr) ++ ']' :: ',' :: '[' ::
                  (joinComma (raw.env.map printEnvPair) ++ ']' :: ')' :: rest))))))) := by
  have h1 : "],[".toList = ([']', ',', '['] : Str) := rfl
  have h2 : "],".toList = ([']', ','] : Str) := rfl
  have h3 : ",[".toList = ([',', '['] : Str) := rfl
  have h4 : "])".toList = ([']', ')'] : Str) := rfl
  simp [printTuple, h1, h2, h3, h4]

/-- `parseTuple` on a printed derivation tuple computes exactly the section
folds of `tupleSpec`, consuming the whole tuple. -/
theorem parseTuple_print (dirD nameD : Str) (raw : RawDrv) (rest : Str) :
    parseTuple dirD nameD (printTuple raw ++ rest) =
      (tupleSpec dirD nameD raw).map (fun d => (d, rest)) := by
  rw [printTuple_shape]
  unfold parseTuple
  simp only [expectTok_lp, expectTok_lb, bind_ok']
  rw [outputsLoop_print]
  rcases houts : outputsSpec [] raw.outputs with e | outs
  · simp [tupleSpec, houts, Except.map, bind_err']
  · simp only [Except.map, bind_ok']
    rw [expectTok_comma, expectTok_lb, bind_ok']
    rw [inputDrvsLoop_print]
    rcases hdrvs : inputDrvsSpec dirD [] raw.inputDrvs with e | drvs
    · simp [tupleSpec, houts, hdrvs, Except.map, bind_err']
    · simp only [Except.map, bind_ok']
      rw [parseStringListF_comma, parseStringListF_print]
      rcases hsrcs : foldE srcF [] raw.inputSrcs with e | srcs
      · simp [tupleSpec, houts, hdrvs, hsrcs, Except.map, bind_err']
      · simp only [Except.map, bind_ok']
        simp only [expectStr_comma, expectStr_quote, bind_ok']
        rw [parseStringListF_comma, parseStringListF_print, foldE_append]
        simp only [Except.map, bind_ok']
        rw [expectTok_comma, expectTok_lb, bind_ok']
        rw [envLoop_print]
        rcases henv : envSpec [] raw.env with e | envs
        · simp [tupleSpec, houts, hdrvs, hsrcs, henv, Except.map, bind_err']
        · simp only [Except.map, bind_ok']
          rw [expectTok_rp, bind_ok']
          simp [tupleSpec, houts, hdrvs, hsrcs, henv, Except.map, Pure.pure, Except.pure]

/-- `ParseDerivation` on printed bytes plus arbitrary trailing data: the
tuple parses by `tupleSpec`; any nonempty trailer is rejected. -/
theorem ParseDerivation_print (dirD nameD : Str) (raw : RawDrv) (t : Str) :
    ParseDerivation dirD nameD (printDerive raw ++ t) =
      (match tupleSpec dirD nameD raw with
      | .error e => .error e
      | .ok d =>
        if t = [] then .ok d else .error ("parse derivation: trailing data".toList)) := by
  unfold ParseDerivation printDerive
  rw [show ("Derive".toList ++ printTuple raw) ++ t = "Derive".toList ++ (printTuple raw ++ t) by
    simp]
  simp only [cutPre_append, parseTuple_print]
  rcases h : tupleSpec dirD nameD raw with e | d
  · rfl
  · rfl

/-! ## Round trip: marshalled derivations parse back to themselves. -/

/-- Well-formedness of one output entry for the round trip: the entry is
non-nil; a fixed output carries a digest of the declared width whose bytes
are bytes, and its store path computation succeeds. -/
def OutputWF (dirD nameD : Str) : Str × Option DerivationOutput → Prop
  | (_, none) => False
  | (_, some (.floating _ _)) => True
  | (k, some (.fixed ca)) =>
    ca.hash.bits.length = ca.hash.typ.size ∧ (∀ b ∈ ca.hash.bits, b < 256) ∧
    (DerivationOutput.path (some (.fixed ca)) dirD nameD k).2 = true

instance (dirD nameD : Str) : ∀ e : Str × Option DerivationOutput,
    Decidable (OutputWF dirD nameD e)
  | (_, none) => isFalse (fun h => h)
  | (_, some (.floating _ _)) => isTrue trivial
  | (k, some (.fixed ca)) =>
    inferInstanceAs (Decidable (ca.hash.bits.length = ca.hash.typ.size ∧
      (∀ b ∈ ca.hash.bits, b < 256) ∧
      (DerivationOutput.path (some (.fixed ca)) dirD nameD k).2 = true))

/-- The domain of the ATerm round trip: derivations the parser accepts (with
matching store directory and name).  The association lists carry the Go-map
invariant of distinct keys in their canonical sorted order, the sorted-set
fields their strictly-ascending invariant, input paths are valid store paths
in the derivation's own directory, and every output marshals. -/
def Derivation.WF (d : Derivation) : Prop :=
  d.name ≠ [] ∧ d.dir ≠ [] ∧
  keysSorted d.outputs ∧ (∀ e ∈ d.outputs, OutputWF d.dir d.name e) ∧
  keysSorted d.inputDerivations ∧
  (∀ e ∈ d.inputDerivations, parsePath e.1 = some e.1 ∧ dirOf e.1 = d.dir ∧ sortedStrict e.2) ∧
  sortedStrict d.inputSources ∧
  (∀ p ∈ d.inputSources, parsePath p = some p ∧ dirOf p = d.dir) ∧
  keysSorted d.env

instance (d : Derivation) : Decidable d.WF :=
  inferInstanceAs (Decidable (d.name ≠ [] ∧ d.dir ≠ [] ∧
    keysSorted d.outputs ∧ (∀ e ∈ d.outputs, OutputWF d.dir d.name e) ∧
    keysSorted d.inputDerivations ∧
    (∀ e ∈ d.inputDerivations, parsePath e.1 = some e.1 ∧ dirOf e.1 = d.dir ∧ sortedStrict e.2) ∧
    sortedStrict d.inputSources ∧
    (∀ p ∈ d.inputSources, parsePath p = some p ∧ dirOf p = d.dir) ∧
    keysSorted d.env))

/-- The four fields `DerivationOutput.marshalText` emits (unmasked) when it
succeeds. -/
def fieldsOf (dirD nameD : Str) : Str × Option DerivationOutput → RawOutput
  | (k, none) => ⟨k, [], [], []⟩
  | (k, some (.fixed ca)) =>
    ⟨k, (DerivationOutput.path (some (.fixed ca)) dirD nameD k).1,
      (methodOfContentAddress ca).tag ++ ca.hash.typ.str, ca.hash.rawBase16⟩
  | (k, some (.floating m a)) => ⟨k, [], m.tag ++ a.str, []⟩

/-- The raw sections a successful marshal prints. -/
def rawOf (d : Derivation) : RawDrv :=
  ⟨(sortPairs d.outputs).map (fieldsOf d.dir d.name),
   sortPairs d.inputDerivations,
   d.inputSources, d.system, d.builder, d.args, sortPairs d.env⟩

theorem marshalFields_ok {dirD nameD : Str} {e : Str × Option DerivationOutput}
    (h : match e.2 with
      | some (.fixed ca) => (DerivationOutput.path (some (.fixed ca)) dirD nameD e.1).2 = true
      | _ => True) :
    DerivationOutput.marshalFields e.2 dirD nameD e.1 false = .ok (fieldsOf dirD nameD e) := by
  obtain ⟨k, o⟩ := e
  rcases o with _ | o
  · rfl
  · rcases o with ca | ⟨m, a⟩
    · have h2 : (DerivationOutput.path (some (.fixed ca)) dirD nameD k).2 = true := h
      simp [DerivationOutput.marshalFields, fieldsOf, h2]
    · rfl

theorem marshalFields_values {dirD nameD : Str} {e : Str × Option DerivationOutput}
    {v : RawOutput} (h : DerivationOutput.marshalFields e.2 dirD nameD e.1 false = .ok v) :
    v = fieldsOf dirD nameD e := by
  obtain ⟨k, o⟩ := e
  rcases o with _ | o
  · cases h; rfl
  · rcases o with ca | ⟨m, a⟩
    · simp only [DerivationOutput.marshalFields, Bool.false_eq_true, if_false] at h
      split at h
      · cases h; rfl
      · exact absurd h (by simp)
    · cases h; rfl

/-- A successful unmasked marshal prints exactly `rawOf`. -/
theorem marshalRaw_values {d : Derivation} {raw : RawDrv}
    (h : d.marshalRaw false = .ok raw) : raw = rawOf d := by
  unfold Derivation.marshalRaw at h
  split at h
  · exact absurd h (by simp)
  · split at h
    · exact absurd h (by simp)
    · obtain ⟨outs, houts, h⟩ := exceptBind_ok h
      obtain ⟨drvs, hdrvs, h⟩ := exceptBind_ok h
      obtain ⟨srcs, hsrcs, h⟩ := exceptBind_ok h
      simp only [Pure.pure, Except.pure, Except.ok.injEq] at h
      subst h
      have h1 : outs = (sortPairs d.outputs).map (fieldsOf d.dir d.name) :=
        mapME_ok_values (fun x v hv => marshalFields_values hv) houts
      have h2 : drvs = (sortPairs d.inputDerivations).map id := by
        refine mapME_ok_values (fun x v hv => ?_) hdrvs
        split at hv
        · cases hv; rfl
        · exact absurd hv (by simp)
      have h3 : srcs = d.inputSources.map id := by
        refine mapME_ok_values (fun x v hv => ?_) hsrcs
        split at hv
        · cases hv; rfl
        · exact absurd hv (by simp)
      simp only [List.map_id] at h2 h3
      rw [h1, h2, h3]
      rfl

/-- Under the well-formedness conditions the marshal succeeds and prints
`rawOf`. -/
theorem marshalRaw_ok {d : Derivation} (hname : d.name ≠ []) (hdir : d.dir ≠ [])
    (houts : ∀ e ∈ d.outputs, OutputWF d.dir d.name e)
    (hdrvs : ∀ e ∈ d.inputDerivations, dirOf e.1 = d.dir)
    (hsrcs : ∀ p ∈ d.inputSources, dirOf p = d.dir) :
    d.marshalRaw false = .ok (rawOf d) := by
  unfold Derivation.marshalRaw
  rw [if_neg hname, if_neg hdir]
  have hmem : ∀ e ∈ sortPairs d.outputs, e ∈ d.outputs := fun e he =>
    (List.perm_insertionSort keyLe d.outputs).mem_iff.mp he
  have hmem2 : ∀ e ∈ sortPairs d.inputDerivations, e ∈ d.inputDerivations := fun e he =>
    (List.perm_insertionSort keyLe d.inputDerivations).mem_iff.mp he
  have h1 : mapME (fun e => DerivationOutput.marshalFields e.2 d.dir d.name e.1 false)
      (sortPairs d.outputs) = .ok ((sortPairs d.outputs).map (fieldsOf d.dir d.name)) := by
    refine mapME_ok ?_
    intro e he
    refine marshalFields_ok ?_
    have hwf := houts e (hmem e he)
    obtain ⟨k, o⟩ := e
    rcases o with _ | o
    · exact hwf.elim
    · rcases o with ca | ⟨m, a⟩
      · exact hwf.2.2
      · trivial
  have h2 : mapME (fun e : Str × List Str => if dirOf e.1 = d.dir then Except.ok e
        else Except.error ("marshal derivation: inputs: unexpected store directory".toList))
      (sortPairs d.inputDerivations) = .ok ((sortPairs d.inputDerivations).map id) := by
    refine mapME_ok ?_
    intro e he
    simp [hdrvs e (hmem2 e he)]
  have h3 : mapME (fun s : Str => if dirOf s = d.dir then Except.ok s
        else Except.error ("marshal derivation: inputs: unexpected store directory".toList))
      d.inputSources = .ok (d.inputSources.map id) := by
    refine mapME_ok ?_
    intro p hp
    simp [hsrcs p hp]
  rw [h1, bind_ok', h2, bind_ok', h3, bind_ok']
  simp [rawOf, Pure.pure, Except.pure, List.map_id]

/-- Per-output round trip: the classification of the marshalled fields
recovers the output. -/
theorem outputFromFields_fieldsOf {dirD nameD k : Str} {o : DerivationOutput}
    (h : OutputWF dirD nameD (k, some o)) :
    outputFromFields (fieldsOf dirD nameD (k, some o)).name
      (fieldsOf dirD nameD (k, some o)).path
      (fieldsOf dirD nameD (k, some o)).caInfo
      (fieldsOf dirD nameD (k, some o)).hashHex = .ok o := by
  rcases o with ca | ⟨m, a⟩
  · obtain ⟨hlen, hbits, _⟩ := h
    have hbitsne : ca.hash.bits ≠ [] := by
      intro hnil
      rw [hnil] at hlen
      have hpos : 0 < HashType.size ca.hash.typ := by
        cases ca.hash.typ <;> decide
      simp only [List.length_nil] at hlen
      omega
    have hhexne : hexEncode ca.hash.bits ≠ [] := hexEncode_ne_nil hbitsne
    simp only [fieldsOf, outputFromFields, Hash.rawBase16, parseHashAlgorithm_tag,
      hexDecode_hexEncode ca.hash.bits hbits]
    rw [if_neg (by intro hc; exact hhexne hc.2)]
    rw [if_pos hhexne]
    rw [if_neg (by rw [hlen]; exact fun hc => hc rfl)]
    rcases ca with hh | hh | hh
    · rfl
    · rfl
    · rfl
  · cases m <;> cases a <;> rfl

theorem outputsSpec_ok (dirD nameD : Str) :
    ∀ (l acc : List (Str × Option DerivationOutput)),
    (∀ e ∈ l, OutputWF dirD nameD e) →
    ((acc ++ l).map Prod.fst).Nodup →
    outputsSpec acc (l.map (fieldsOf dirD nameD)) = .ok (acc ++ l) := by
  intro l
  induction l with
  | nil => intro acc _ _; simp [outputsSpec]
  | cons e rest ih =>
    intro acc hwf hnd
    obtain ⟨k, o⟩ := e
    have hwf0 := hwf (k, o) (by simp)
    rcases o with _ | o
    · exact hwf0.elim
    · have hname : (fieldsOf dirD nameD (k, some o)).name = k := by
        rcases o with ca | ⟨m, a⟩ <;> rfl
      have hclass := outputFromFields_fieldsOf hwf0
      rw [hname] at hclass
      have hknot : k ∉ acc.map Prod.fst := by
        have h2 := hnd
        rw [List.map_append] at h2
        have hdisj := (List.nodup_append.mp h2).2.2
        intro hk
        exact hdisj hk (by simp)
      have hlook : alookup k acc = none := (alookup_eq_none k acc).mpr hknot
      simp only [List.map_cons, outputsSpec, hname, hclass]
      rw [if_neg (by rw [hlook]; simp)]
      have hres := ih (acc ++ [(k, some o)]) (fun x hx => hwf x (by simp [hx]))
        (by rw [List.append_assoc]; exact hnd)
      rw [hres]
      simp

theorem inputDrvsSpec_ok (dirD : Str) :
    ∀ (l acc : List (Str × List Str)),
    (∀ e ∈ l, parsePath e.1 = some e.1 ∧ dirOf e.1 = dirD ∧ sortedStrict e.2) →
    ((acc ++ l).map Prod.fst).Nodup →
    inputDrvsSpec dirD acc l = .ok (acc ++ l) := by
  intro l
  induction l with
  | nil => intro acc _ _; simp [inputDrvsSpec]
  | cons e rest ih =>
    intro acc hwf hnd
    obtain ⟨p, names⟩ := e
    obtain ⟨hpp, hdir, hsorted⟩ := hwf (p, names) (by simp)
    have hknot : p ∉ acc.map Prod.fst := by
      have h2 := hnd
      rw [List.map_append] at h2
      have hdisj := (List.nodup_append.mp h2).2.2
      intro hk
      exact hdisj hk (by simp)
    have hlook : alookup p acc = none := (alookup_eq_none p acc).mpr hknot
    simp only [inputDrvsSpec, hpp]
    rw [if_neg (by rw [hdir]; exact fun hc => hc rfl)]
    rw [if_neg (by rw [hlook]; simp)]
    rw [foldl_ssInsert_sorted_nil names hsorted]
    have hres := ih (acc ++ [(p, names)]) (fun x hx => hwf x (by simp [hx]))
      (by rw [List.append_assoc]; exact hnd)
    rw [hres]
    simp

theorem envSpec_ok : ∀ (l acc : List (Str × Str)),
    ((acc ++ l).map Prod.fst).Nodup →
    envSpec acc l = .ok (acc ++ l) := by
  intro l
  induction l with
  | nil => intro acc _; simp [envSpec]
  | cons e rest ih =>
    intro acc hnd
    obtain ⟨k, v⟩ := e
    have hknot : k ∉ acc.map Prod.fst := by
      have h2 := hnd
      rw [List.map_append] at h2
      have hdisj := (List.nodup_append.mp h2).2.2
      intro hk
      exact hdisj hk (by simp)
    have hlook : alookup k acc = none := (alookup_eq_none k acc).mpr hknot
    simp only [envSpec]
    rw [if_neg (by rw [hlook]; simp)]
    have hres := ih (acc ++ [(k, v)]) (by rw [List.append_assoc]; exact hnd)
    rw [hres]
    simp

theorem foldE_srcF : ∀ (xs acc : List Str), (∀ p ∈ xs, parsePath p = some p) →
    foldE srcF acc xs = .ok (xs.foldl (fun a v => ssInsert v a) acc) := by
  intro xs
  induction xs with
  | nil => intro acc _; rfl
  | cons x xs2 ih =>
    intro acc h
    have hx := h x (by simp)
    simp only [foldE, srcF, hx, List.foldl_cons]
    exact ih (ssInsert x acc) (fun p hp => h p (by simp [hp]))

/-- On the raw sections printed from a well-formed derivation, the tuple
parse recovers the derivation itself. -/
theorem tupleSpec_rawOf {d : Derivation} (h : d.WF) :
    tupleSpec d.dir d.name (rawOf d) = .ok d := by
  obtain ⟨hname, hdir, hosort, howf, hdsort, hdwf, hssort, hswf, hesort⟩ := h
  have houts : outputsSpec [] ((sortPairs d.outputs).map (fieldsOf d.dir d.name)) =
      .ok d.outputs := by
    rw [sortPairs_of_keysSorted hosort]
    have hr := outputsSpec_ok d.dir d.name d.outputs [] howf
      (by simpa using keysSorted_nodup hosort)
    simpa using hr
  have hdrvs : inputDrvsSpec d.dir [] (sortPairs d.inputDerivations) =
      .ok d.inputDerivations := by
    rw [sortPairs_of_keysSorted hdsort]
    have hr := inputDrvsSpec_ok d.dir d.inputDerivations [] hdwf
      (by simpa using keysSorted_nodup hdsort)
    simpa using hr
  have hsrcs : foldE srcF [] d.inputSources = .ok d.inputSources := by
    rw [foldE_srcF d.inputSources [] (fun p hp => (hswf p hp).1)]
    rw [foldl_ssInsert_sorted_nil d.inputSources hssort]
  have henv : envSpec [] (sortPairs d.env) = .ok d.env := by
    rw [sortPairs_of_keysSorted hesort]
    have hr := envSpec_ok d.env [] (by simpa using keysSorted_nodup hesort)
    simpa using hr
  unfold tupleSpec
  simp only [rawOf, houts, hdrvs, hsrcs, henv]

/-- A well-formed derivation marshals, printing exactly `rawOf`. -/
theorem marshalText_ok {d : Derivation} (h : d.WF) :
    d.marshalText false = .ok (printDerive (rawOf d)) := by
  obtain ⟨hname, hdir, hosort, howf, hdsort, hdwf, hssort, hswf, hesort⟩ := h
  unfold Derivation.marshalText
  rw [marshalRaw_ok hname hdir howf (fun e he => (hdwf e he).2.1) (fun p hp => (hswf p hp).2)]
  rfl

/-- Parsing the marshalled text of a well-formed derivation recovers it. -/
theorem parse_of_marshal {d : Derivation} (h : d.WF) :
    ParseDerivation d.dir d.name (printDerive (rawOf d)) = .ok d := by
  have hp := ParseDerivation_print d.dir d.name (rawOf d) []
  rw [List.append_nil] at hp
  rw [hp]
  simp only [tupleSpec_rawOf h]
  rfl

/-- Sample derivation for the round-trip witness. -/
def dexW : Derivation :=
  ⟨"/zb/store".toList, "x".toList, "sys".toList, "/bin/sh".toList, ["-c".toList],
   [("k".toList, "v".toList)], [], [],
   [("out".toList, some (.floating .recursive .sha256))]⟩

/-- C2: for every derivation `d` the parser accepts — formalised as the
well-formedness domain `Derivation.WF`, which characterises exactly the
derivations whose marshalled text parses back (matching dir and name) —
parsing the marshalled ATerm yields `d` itself, and re-marshalling the parse
result reproduces the marshalled bytes byte for byte. -/
theorem c2_aterm_roundtrip (d : Derivation) (h : d.WF) :
    ∃ x, d.marshalText false = .ok x ∧
      ParseDerivation d.dir d.name x = .ok d ∧
      (ParseDerivation d.dir d.name x).bind (fun d2 => d2.marshalText false) = .ok x := by
  refine ⟨printDerive (rawOf d), marshalText_ok h, parse_of_marshal h, ?_⟩
  rw [parse_of_marshal h]
  exact marshalText_ok h

theorem c2_aterm_roundtrip_witness :
    ∃ x, dexW.marshalText false = .ok x ∧
      ParseDerivation dexW.dir dexW.name x = .ok dexW ∧
      (ParseDerivation dexW.dir dexW.name x).bind (fun d2 => d2.marshalText false) = .ok x :=
  c2_aterm_roundtrip dexW (by decide)

/-- Sample derivation for the ordering witness: env, args and outputs stored
out of order. -/
def dex3 : Derivation :=
  ⟨"/zb/store".toList, "y".toList, "sys".toList, "/bin/sh".toList,
   ["b".toList, "a".toList],
   [("b".toList, "1".toList), ("a".toList, "2".toList)], [], [],
   [("out".toList, some (.floating .recursive .sha256)),
    ("dev".toList, some (.floating .flat .sha1))]⟩

/-- C3: the ATerm serialization emits outputs in ascending order of name,
input derivations in ascending order of path, their output-name sets and the
input sources in ascending order, env entries in ascending order of key, and
the builder args in their original order: a successful marshal is literally
the print of sorted permutations of the map sections around the as-stored
args, input sources and value sets. -/
theorem c3_serialization_order (d : Derivation) (m : Str)
    (hm : d.marshalText false = .ok m)
    (hsrc : sortedStrict d.inputSources)
    (hvals : ∀ e ∈ d.inputDerivations, sortedStrict e.2) :
    ∃ (outs : List (Str × Option DerivationOutput)) (drvs : List (Str × List Str))
      (envs : List (Str × Str)),
      outs.Perm d.outputs ∧ (outs.map Prod.fst).Sorted strLe ∧
      drvs.Perm d.inputDerivations ∧ (drvs.map Prod.fst).Sorted strLe ∧
      (∀ e ∈ drvs, e.2.Sorted strLe) ∧
      envs.Perm d.env ∧ (envs.map Prod.fst).Sorted strLe ∧
      d.inputSources.Sorted strLe ∧
      m = printDerive ⟨outs.map (fieldsOf d.dir d.name), drvs, d.inputSources,
        d.system, d.builder, d.args, envs⟩ := by
  refine ⟨sortPairs d.outputs, sortPairs d.inputDerivations, sortPairs d.env,
    List.perm_insertionSort keyLe d.outputs, ?_,
    List.perm_insertionSort keyLe d.inputDerivations, ?_, ?_,
    List.perm_insertionSort keyLe d.env, ?_,
    sortedStrict_sorted_le hsrc, ?_⟩
  · exact List.pairwise_map.mpr (List.sorted_insertionSort keyLe d.outputs)
  · exact List.pairwise_map.mpr (List.sorted_insertionSort keyLe d.inputDerivations)
  · intro e he
    exact sortedStrict_sorted_le
      (hvals e ((List.perm_insertionSort keyLe d.inputDerivations).mem_iff.mp he))
  · exact List.pairwise_map.mpr (List.sorted_insertionSort keyLe d.env)
  · unfold Derivation.marshalText at hm
    cases hraw : d.marshalRaw false with
    | error e => rw [hraw] at hm; exact absurd hm (by simp [Except.map])
    | ok raw =>
      rw [hraw] at hm
      simp only [Except.map] at hm
      cases hm
      rw [marshalRaw_values hraw]
      rfl

theorem c3_serialization_order_witness :
    ∃ (outs : List (Str × Option DerivationOutput)) (drvs : List (Str × List Str))
      (envs : List (Str × Str)),
      outs.Perm dex3.outputs ∧ (outs.map Prod.fst).Sorted strLe ∧
      drvs.Perm dex3.inputDerivations ∧ (drvs.map Prod.fst).Sorted strLe ∧
      (∀ e ∈ drvs, e.2.Sorted strLe) ∧
      envs.Perm dex3.env ∧ (envs.map Prod.fst).Sorted strLe ∧
      dex3.inputSources.Sorted strLe ∧
      printDerive (rawOf dex3) = printDerive ⟨outs.map (fieldsOf dex3.dir dex3.name), drvs,
        dex3.inputSources, dex3.system, dex3.builder, dex3.args, envs⟩ :=
  c3_serialization_order dex3 (printDerive (rawOf dex3)) (by decide) (by decide) (by decide)

/-- The marshalled text is uniquely determined: it is the print of `rawOf`. -/
theorem marshalText_values {d : Derivation} {m : Str}
    (h : d.marshalText false = .ok m) : m = printDerive (rawOf d) := by
  unfold Derivation.marshalText at h
  cases hraw : d.marshalRaw false with
  | error e => rw [hraw] at h; exact absurd h (by simp [Except.map])
  | ok raw =>
    rw [hraw] at h
    simp only [Except.map] at h
    cases h
    rw [marshalRaw_values hraw]

/-- A failing tuple parse makes the whole parse fail. -/
theorem ParseDerivation_print_error {dirD nameD : Str} {raw : RawDrv} {e : Str}
    (h : tupleSpec dirD nameD raw = .error e) :
    ParseDerivation dirD nameD (printDerive raw) = .error e := by
  have hp := ParseDerivation_print dirD nameD raw []
  rw [List.append_nil] at hp
  rw [hp, h]

/-- A successful outputs parse implies the printed output names were
distinct. -/
theorem outputsSpec_names_nodup :
    ∀ (l : List RawOutput) (acc res : List (Str × Option DerivationOutput)),
    outputsSpec acc l = .ok res → (acc.map Prod.fst).Nodup →
    (acc.map Prod.fst ++ l.map RawOutput.name).Nodup := by
  intro l
  induction l with
  | nil => intro acc res _ hacc; simpa using hacc
  | cons o rest ih =>
    intro acc res h hacc
    simp only [outputsSpec] at h
    rcases hof : outputFromFields o.name o.path o.caInfo o.hashHex with e | out
    · rw [hof] at h; exact absurd h (by simp)
    · rw [hof] at h
      simp only [] at h
      by_cases hlk : (alookup o.name acc).isSome = true
      · rw [if_pos hlk] at h; exact absurd h (by simp)
      · rw [if_neg hlk] at h
        have hnone : alookup o.name acc = none := by
          cases hal : alookup o.name acc with
          | none => rfl
          | some w => rw [hal] at hlk; simp at hlk
        have hnotin : o.name ∉ acc.map Prod.fst := (alookup_eq_none o.name acc).mp hnone
        have hacc2 : ((acc ++ [(o.name, some out)]).map Prod.fst).Nodup := by
          rw [List.map_append]
          refine List.nodup_append.mpr ⟨hacc, by simp, ?_⟩
          intro a ha hb
          simp only [List.map_cons, List.map_nil, List.mem_cons, List.not_mem_nil,
            or_false] at hb
          subst hb
          exact hnotin ha
        have hr := ih (acc ++ [(o.name, some out)]) res h hacc2
        rw [List.map_append] at hr
        simpa [List.append_assoc] using hr

/-- A successful env parse implies the printed env keys were distinct. -/
theorem envSpec_keys_nodup :
    ∀ (l : List (Str × Str)) (acc res : List (Str × Str)),
    envSpec acc l = .ok res → (acc.map Prod.fst).Nodup →
    (acc.map Prod.fst ++ l.map Prod.fst).Nodup := by
  intro l
  induction l with
  | nil => intro acc res _ hacc; simpa using hacc
  | cons e rest ih =>
    intro acc res h hacc
    obtain ⟨k, v⟩ := e
    simp only [envSpec] at h
    by_cases hlk : (alookup k acc).isSome = true
    · rw [if_pos hlk] at h; exact absurd h (by simp)
    · rw [if_neg hlk] at h
      have hnone : alookup k acc = none := by
        cases hal : alookup k acc with
        | none => rfl
        | some w => rw [hal] at hlk; simp at hlk
      have hnotin : k ∉ acc.map Prod.fst := (alookup_eq_none k acc).mp hnone
      have hacc2 : ((acc ++ [(k, v)]).map Prod.fst).Nodup := by
        rw [List.map_append]
        refine List.nodup_append.mpr ⟨hacc, by simp, ?_⟩
        intro a ha hb
        simp only [List.map_cons, List.map_nil, List.mem_cons, List.not_mem_nil,
          or_false] at hb
        subst hb
        exact hnotin ha
      have hr := ih (acc ++ [(k, v)]) res h hacc2
      rw [List.map_append] at hr
      simpa [List.append_assoc] using hr

/-- A successful input-derivations parse implies every printed entry's path
resolves into the expected store directory. -/
theorem inputDrvsSpec_dir (dirD : Str) :
    ∀ (l acc res : List (Str × List Str)),
    inputDrvsSpec dirD acc l = .ok res →
    ∀ p v, (p, v) ∈ l → ∀ pp, parsePath p = some pp → dirOf pp = dirD := by
  intro l
  induction l with
  | nil => intro acc res _ p v hmem; exact absurd hmem (by simp)
  | cons e rest ih =>
    intro acc res h p v hmem pp hpp
    obtain ⟨q, names⟩ := e
    simp only [inputDrvsSpec] at h
    rcases hq : parsePath q with _ | pq
    · rw [hq] at h; exact absurd h (by simp)
    · rw [hq] at h
      simp only [] at h
      by_cases hd : dirOf pq ≠ dirD
      · rw [if_pos hd] at h; exact absurd h (by simp)
      · rw [if_neg hd] at h
        rcases List.mem_cons.mp hmem with h1 | h1
        · obtain ⟨hq1, hv1⟩ := Prod.mk.injEq .. ▸ h1
          subst hq1
          rw [hq] at hpp
          cases hpp
          exact not_not.mp hd
        · by_cases hlk : (alookup pq acc).isSome = true
          · rw [if_pos hlk] at h; exact absurd h (by simp)
          · rw [if_neg hlk] at h
            exact ih _ res h p v h1 pp hpp

/-- C4: the parser rejects trailing data after the closing parenthesis,
duplicate output names, duplicate env keys, and input-derivation paths whose
directory differs from the derivation's store directory; and it accepts
(parsing back exactly) every well-formed marshalled derivation. -/
theorem c4_parser_contract :
    (∀ (d : Derivation) (x t : Str), d.WF → d.marshalText false = .ok x → t ≠ [] →
      ParseDerivation d.dir d.name (x ++ t) =
        .error ("parse derivation: trailing data".toList)) ∧
    (∀ (dirD nameD : Str) (raw : RawDrv), ¬ (raw.outputs.map RawOutput.name).Nodup →
      ∃ e, ParseDerivation dirD nameD (printDerive raw) = .error e) ∧
    (∀ (dirD nameD : Str) (raw : RawDrv), ¬ (raw.env.map Prod.fst).Nodup →
      ∃ e, ParseDerivation dirD nameD (printDerive raw) = .error e) ∧
    (∀ (dirD nameD : Str) (raw : RawDrv) (p : Str) (v : List Str) (pp : Str),
      (p, v) ∈ raw.inputDrvs → parsePath p = some pp → dirOf pp ≠ dirD →
      ∃ e, ParseDerivation dirD nameD (printDerive raw) = .error e) ∧
    (∀ d : Derivation, d.WF →
      ∃ x, d.marshalText false = .ok x ∧ ParseDerivation d.dir d.name x = .ok d) := by
  refine ⟨?_, ?_, ?_, ?_, ?_⟩
  · intro d x t hwf hm ht
    have hx : x = printDerive (rawOf d) := marshalText_values hm
    subst hx
    rw [ParseDerivation_print d.dir d.name (rawOf d) t]
    simp only [tupleSpec_rawOf hwf]
    rw [if_neg ht]
  · intro dirD nameD raw hdup
    rcases ho : outputsSpec [] raw.outputs with e | outs
    · exact ⟨e, ParseDerivation_print_error (by simp only [tupleSpec, ho])⟩
    · exact absurd
        (by simpa using outputsSpec_names_nodup raw.outputs [] outs ho (by simp)) hdup
  · intro dirD nameD raw hdup
    rcases ho : outputsSpec [] raw.outputs with e | outs
    · exact ⟨e, ParseDerivation_print_error (by simp only [tupleSpec, ho])⟩
    · rcases hd : inputDrvsSpec dirD [] raw.inputDrvs with e | drvs
      · exact ⟨e, ParseDerivation_print_error (by simp only [tupleSpec, ho, hd])⟩
      · rcases hs : foldE srcF [] raw.inputSrcs with e | srcs
        · exact ⟨e, ParseDerivation_print_error (by simp only [tupleSpec, ho, hd, hs])⟩
        · rcases he : envSpec [] raw.env with e | envs
          · exact ⟨e, ParseDerivation_print_error (by simp only [tupleSpec, ho, hd, hs, he])⟩
          · exact absurd
              (by simpa using envSpec_keys_nodup raw.env [] envs he (by simp)) hdup
  · intro dirD nameD raw p v pp hmem hpp hdir
    rcases ho : outputsSpec [] raw.outputs with e | outs
    · exact ⟨e, ParseDerivation_print_error (by simp only [tupleSpec, ho])⟩
    · rcases hd : inputDrvsSpec dirD [] raw.inputDrvs with e | drvs
      · exact ⟨e, ParseDerivation_print_error (by simp only [tupleSpec, ho, hd])⟩
      · exact absurd (inputDrvsSpec_dir dirD raw.inputDrvs [] drvs hd p v hmem pp hpp) hdir
  · intro d hwf
    exact ⟨printDerive (rawOf d), marshalText_ok hwf, parse_of_marshal hwf⟩

theorem c4_parser_contract_witness :
    (ParseDerivation
        (Derivation.mk ("/zb/store".toList) ("w".toList) ("sys".toList) ("/bin/sh".toList)
          [] [] [] [] [(("out".toList), some (.floating .recursive .sha256))]).dir
        (Derivation.mk ("/zb/store".toList) ("w".toList) ("sys".toList) ("/bin/sh".toList)
          [] [] [] [] [(("out".toList), some (.floating .recursive .sha256))]).name
        (printDerive (rawOf (Derivation.mk ("/zb/store".toList) ("w".toList) ("sys".toList)
          ("/bin/sh".toList) [] [] [] []
          [(("out".toList), some (.floating .recursive .sha256))])) ++ " ".toList) =
      .error ("parse derivation: trailing data".toList)) ∧
    (∃ e, ParseDerivation ("/zb/store".toList) ("w".toList)
      (printDerive ⟨[⟨"o".toList, [], "r:sha256".toList, []⟩,
        ⟨"o".toList, [], "r:sha256".toList, []⟩], [], [], "s".toList, "b".toList, [], []⟩) =
      .error e) ∧
    (∃ e, ParseDerivation ("/zb/store".toList) ("w".toList)
      (printDerive ⟨[], [], [], "s".toList, "b".toList, [],
        [("k".toList, "a".toList), ("k".toList, "b".toList)]⟩) = .error e) ∧
    (∃ e, ParseDerivation ("/zb/store".toList) ("w".toList)
      (printDerive ⟨[], [("/other/00000000000000000000000000000000-x.drv".toList, [])],
        [], "s".toList, "b".toList, [], []⟩) = .error e) ∧
    (∃ x, (Derivation.mk ("/zb/store".toList) ("w".toList) ("sys".toList) ("/bin/sh".toList)
        [] [] [] [] [(("out".toList), some (.floating .recursive .sha256))]).marshalText false =
          .ok x ∧
      ParseDerivation
        (Derivation.mk ("/zb/store".toList) ("w".toList) ("sys".toList) ("/bin/sh".toList)
          [] [] [] [] [(("out".toList), some (.floating .recursive .sha256))]).dir
        (Derivation.mk ("/zb/store".toList) ("w".toList) ("sys".toList) ("/bin/sh".toList)
          [] [] [] [] [(("out".toList), some (.floating .recursive .sha256))]).name x =
        .ok (Derivation.mk ("/zb/store".toList) ("w".toList) ("sys".toList) ("/bin/sh".toList)
          [] [] [] [] [(("out".toList), some (.floating .recursive .sha256))])) :=
  ⟨c4_parser_contract.1
      (Derivation.mk ("/zb/store".toList) ("w".toList) ("sys".toList) ("/bin/sh".toList)
        [] [] [] [] [(("out".toList), some (.floating .recursive .sha256))])
      (printDerive (rawOf (Derivation.mk ("/zb/store".toList) ("w".toList) ("sys".toList)
        ("/bin/sh".toList) [] [] [] []
        [(("out".toList), some (.floating .recursive .sha256))])))
      (" ".toList) (by decide) (by decide) (by decide),
   c4_parser_contract.2.1 ("/zb/store".toList) ("w".toList)
      ⟨[⟨"o".toList, [], "r:sha256".toList, []⟩, ⟨"o".toList, [], "r:sha256".toList, []⟩],
        [], [], "s".toList, "b".toList, [], []⟩ (by decide),
   c4_parser_contract.2.2.1 ("/zb/store".toList) ("w".toList)
      ⟨[], [], [], "s".toList, "b".toList, [],
        [("k".toList, "a".toList), ("k".toList, "b".toList)]⟩ (by decide),
   c4_parser_contract.2.2.2.1 ("/zb/store".toList) ("w".toList)
      ⟨[], [("/other/00000000000000000000000000000000-x.drv".toList, [])],
        [], "s".toList, "b".toList, [], []⟩
      ("/other/00000000000000000000000000000000-x.drv".toList) []
      ("/other/00000000000000000000000000000000-x.drv".toList)
      (by decide) (by decide) (by decide),
   c4_parser_contract.2.2.2.2
      (Derivation.mk ("/zb/store".toList) ("w".toList) ("sys".toList) ("/bin/sh".toList)
        [] [] [] [] [(("out".toList), some (.floating .recursive .sha256))]) (by decide)⟩

/-! ## Source path imports (path_eval.go): the cache stamp and toFile. -/

/-- The find.sql row callback of `Eval.checkStamp` (path_eval.go): parse each
recorded path, skip rows that do not parse into the store directory, and fail
on a second match (hash collision). -/
def checkStampRows (storeDir : Str) : Option Str → List Str → Except Str (Option Str)
  | found, [] => .ok found
  | found, r :: rest =>
    match parsePath r with
    | none => checkStampRows storeDir found rest
    | some p =>
      if dirOf p ≠ storeDir then checkStampRows storeDir found rest
      else
        match found with
        | some _ => .error ("multiple store paths found (hash collision)".toList)
        | none => checkStampRows storeDir (some p) rest

/-- `Eval.checkStamp` (path_eval.go): the store path of a previous import of
this name, erring when the row callback failed or when no row matched. -/
def checkStamp (storeDir : Str) (rows : List Str) : Except Str Str :=
  match checkStampRows storeDir none rows with
  | .error e => .error ("check stamp: find match: ".toList ++ e)
  | .ok none => .error ("check stamp: no match".toList)
  | .ok (some p) => .ok p

/-- Outcome of the import decision in `Eval.pathFunction`. -/
inductive PathOutcome
  | reuse (p : Str)
  | reimport
deriving DecidableEq

/-- The import decision of `Eval.pathFunction` (path_eval.go line 72): the
cached path is reused only when `checkStamp` succeeds and the path still
exists on disk; any `checkStamp` error is swallowed by the `err == nil`
guard and the function falls through to a fresh import. -/
def pathFunctionOutcome (storeDir : Str) (rows : List Str) (onDisk : Str → Bool) :
    PathOutcome :=
  match checkStamp storeDir rows with
  | .ok prev => if onDisk prev then .reuse prev else .reimport
  | .error _ => .reimport

/-- A cache row `checkStamp` counts as a match: it parses as a store path in
the store directory. -/
def rowValid (storeDir r : Str) : Bool :=
  match parsePath r with
  | none => false
  | some p => decide (dirOf p = storeDir)

theorem checkStampRows_collision (storeDir : Str) :
    ∀ (rows : List Str) (found : Option Str),
    2 ≤ rows.countP (rowValid storeDir) + (if found.isSome then 1 else 0) →
    ∃ e, checkStampRows storeDir found rows = .error e := by
  intro rows
  induction rows with
  | nil =>
    intro found h
    rcases found with _ | p <;> simp at h
  | cons r rest ih =>
    intro found h
    rcases hr : parsePath r with _ | p
    · have hv : rowValid storeDir r = false := by simp [rowValid, hr]
      simp only [checkStampRows, hr]
      refine ih found ?_
      have h2 := h
      rw [List.countP_cons, hv] at h2
      simpa using h2
    · by_cases hd : dirOf p = storeDir
      · have hv : rowValid storeDir r = true := by simp [rowValid, hr, hd]
        simp only [checkStampRows, hr]
        rw [if_neg (by simp [hd])]
        rcases found with _ | q
        · refine ih (some p) ?_
          have h2 := h
          rw [List.countP_cons, hv] at h2
          have h3 : 2 ≤ List.countP (rowValid storeDir) rest + 1 := by simpa using h2
          simpa using h3
        · exact ⟨_, rfl⟩
      · have hv : rowValid storeDir r = false := by
          simp [rowValid, hr, hd]
        simp only [checkStampRows, hr]
        rw [if_pos hd]
        refine ih found ?_
        have h2 := h
        rw [List.countP_cons, hv] at h2
        simpa using h2

/-- C6 counterexample to the claim as stated: with two cache rows recorded
for the name — the hash-collision condition — `checkStamp` does error, yet
the path operation does not fail: the collision error is swallowed and a
fresh import proceeds. -/
theorem c6_collision_counterexample :
    checkStamp ("/zb/store".toList)
        ["/zb/store/00000000000000000000000000000000-a".toList,
         "/zb/store/00000000000000000000000000000000-b".toList] =
      .error (("check stamp: find match: " ++
        "multiple store paths found (hash collision)").toList) ∧
    pathFunctionOutcome ("/zb/store".toList)
        ["/zb/store/00000000000000000000000000000000-a".toList,
         "/zb/store/00000000000000000000000000000000-b".toList]
        (fun _ => true) = .reimport :=
  ⟨by decide, by decide⟩

/-- C6 (amended): when the cache lookup finds two or more valid rows for the
name, `checkStamp` reports the hash collision as an error, but the path
operation does not fail and does not reuse either entry: `pathFunction`
swallows the error and re-imports. -/
theorem c6_collision_swallowed (storeDir : Str) (rows : List Str) (onDisk : Str → Bool)
    (h : 2 ≤ rows.countP (rowValid storeDir)) :
    (∃ e, checkStamp storeDir rows = .error e) ∧
    pathFunctionOutcome storeDir rows onDisk = .reimport := by
  obtain ⟨e, he⟩ := checkStampRows_collision storeDir rows none (by simpa using h)
  constructor
  · exact ⟨_, by unfold checkStamp; rw [he]⟩
  · unfold pathFunctionOutcome checkStamp
    rw [he]

theorem c6_collision_swallowed_witness :
    (∃ e, checkStamp ("/zb/store".toList)
        ["/zb/store/00000000000000000000000000000000-a".toList,
         "/zb/store/00000000000000000000000000000000-b".toList] = .error e) ∧
    pathFunctionOutcome ("/zb/store".toList)
        ["/zb/store/00000000000000000000000000000000-a".toList,
         "/zb/store/00000000000000000000000000000000-b".toList]
        (fun _ => false) = .reimport :=
  c6_collision_swallowed ("/zb/store".toList)
    ["/zb/store/00000000000000000000000000000000-a".toList,
     "/zb/store/00000000000000000000000000000000-b".toList]
    (fun _ => false) (by decide)

/-- The string-context dependency loop of `Eval.toFileFunction`
(path_eval.go): reject any dependency beginning with "!", otherwise add it
to the reference sorted set. -/
def toFileRefs : List Str → List Str → Except Str (List Str)
  | [], acc => .ok acc
  | d :: rest, acc =>
    if d.head? = some '!' then
      .error ("toFile: cannot depend on derivation outputs".toList)
    else toFileRefs rest (ssInsert d acc)

/-- Store effects `toFileFunction` can perform, in order. -/
inductive Effect
  | startImport
  | writeNar (contents : Str)
  | trailer (storePath : Str) (refs : List Str)
  | closeImport
deriving DecidableEq

/-- `Eval.toFileFunction` (path_eval.go): hash the contents, collect the
string-context references (rejecting derivation outputs), compute the text
content-address store path, then either reuse an existing path or import a
single-file NAR — returning the effect trace alongside the result. -/
def toFileFunction (storeDir name s : Str) (deps : List Str) (onDisk : Str → Bool) :
    List Effect × Except Str Str :=
  match toFileRefs deps [] with
  | .error e => ([], .error e)
  | .ok refs =>
    match fixedCAOutputPath storeDir name (.text ⟨.sha256, sha256 (strBytes s)⟩)
        ⟨refs, false⟩ with
    | .error e => ([], .error e)
    | .ok storePath =>
      if onDisk storePath then ([], .ok storePath)
      else ([.startImport, .writeNar s, .trailer storePath refs, .closeImport],
        .ok storePath)

theorem toFileRefs_bang : ∀ (deps acc : List Str) (d : Str), d ∈ deps →
    d.head? = some '!' →
    toFileRefs deps acc = .error ("toFile: cannot depend on derivation outputs".toList) := by
  intro deps
  induction deps with
  | nil => intro acc d hd; exact absurd hd (by simp)
  | cons x rest ih =>
    intro acc d hd hbang
    by_cases hx : x.head? = some '!'
    · simp [toFileRefs, hx]
    · simp only [toFileRefs]
      rw [if_neg hx]
      rcases List.mem_cons.mp hd with h1 | h1
      · subst h1; exact absurd hbang hx
      · exact ih (ssInsert x acc) d h1 hbang

/-- C7: if any string-context dependency of the contents begins with "!"
(the derivation-output marker), `toFile` fails and performs no store
mutation: the effect trace is empty — no import connection opened, no NAR
bytes streamed, no trailer creating a store object. -/
theorem c7_toFile_rejects_outputs (storeDir name s : Str) (deps : List Str)
    (onDisk : Str → Bool) (d : Str) (hd : d ∈ deps) (hbang : d.head? = some '!') :
    toFileFunction storeDir name s deps onDisk =
      ([], .error ("toFile: cannot depend on derivation outputs".toList)) := by
  unfold toFileFunction
  rw [toFileRefs_bang deps [] d hd hbang]

theorem c7_toFile_rejects_outputs_witness :
    toFileFunction ("/zb/store".toList) ("n".toList) ("hello".toList)
      [("!x".toList)] (fun _ => false) =
      ([], .error ("toFile: cannot depend on derivation outputs".toList)) :=
  c7_toFile_rejects_outputs ("/zb/store".toList) ("n".toList) ("hello".toList)
    [("!x".toList)] (fun _ => false) ("!x".toList) (by decide) (by decide)

end Zb
